import Mathlib

/-!
# RootSupport: series transforms and spectral transform

A shallow embedding of `rs::graph` and `rs::math` from `src/RootSupport.h`
and of the constructor of `rs::TreeHelper` from branch names in
`src/libs/RootTree.h`.

* `Double_t` is an element of a linear ordered field `α` (exact arithmetic);
  every definition is computable and can be run at `α := ℚ`.
* A `TGraph` / `TGraphErrors` object is a record holding its identity strings,
  the `kIsSortedX` bit and its points.  The template parameter `TGraphLike`
  is a type index, `if constexpr (is_base_of_v<TGraphErrors, TGraphLike>)`
  is a case split on it.
  `Create(const TGraphLike*)` and `MakeGraphCoarseGrained` are well-formed for
  `TGraphLike = TGraph` only, and are defined on plain graphs.
* `Int_t` point counts are natural numbers; every index the code computes is
  bounded by a point count, and point counts (and the sum of two of them in
  `PushGraph`) are taken to fit an `Int_t`.
* A C++ exception, or an array access outside its sequence, ends a call with
  an `Abort` value; a mutating call returns the object as the call left it
  together with the `Abort`, if any.
* A `std::string` is a list of `char`; a `TreeHelper` is the list of branches
  of its tree and the entries of its map `vals_`.
-/

namespace rs

/-- How a call can end early: the three standard exceptions thrown in
`RootSupport.h`, and an array element access outside the sequence (undefined
behaviour in C++, made observable here). -/
inductive Abort where
  | invalid_argument
  | range_error
  | runtime_error
  | out_of_bounds
  deriving DecidableEq

/-- The template parameter `TGraphLike`. -/
inductive TGraphLike where
  | TGraph
  | TGraphErrors
  deriving DecidableEq

/-- Value of `std::is_base_of_v<TGraphErrors, TGraphLike>`. -/
def TGraphLike.hasErrors : TGraphLike → Bool
  | .TGraph => false
  | .TGraphErrors => true

/-- One point `(fX[i], fY[i], fEX[i], fEY[i])`.  A plain `TGraph` has no error
arrays: there the last two components are carried along and no code path of
the plain instantiation reads or writes them. -/
structure Sample (α : Type) where
  x : α
  y : α
  ex : α
  ey : α
  deriving DecidableEq

/-- The point a freshly allocated slot holds (ROOT zero-fills new storage). -/
def Sample.zero {α : Type} [Zero α] : Sample α := ⟨0, 0, 0, 0⟩

/-- A graph object of static type `T`. -/
structure Graph (T : TGraphLike) (α : Type) where
  fName : String
  fTitle : String
  xTitle : String
  yTitle : String
  markerStyle : Nat
  kIsSortedX : Bool
  pts : List (Sample α)
  deriving DecidableEq

/-- A mutating call: the object as the call left it, and the exception, if one
was thrown. -/
structure Run (σ : Type) where
  state : σ
  raised : Option Abort

/-- Marker style `kFullCircle`. -/
def kFullCircle : Nat := 20

section Loops

variable {σ : Type}

/-- The loop `for (Int_t i = lo; i < lo + len; ++i) body(i)`, threading the
state; an iteration that aborts ends the loop with the state reached. -/
def forLoop (body : Nat → σ → Run σ) : Nat → Nat → σ → Run σ
  | _, 0, s => ⟨s, none⟩
  | lo, len + 1, s =>
    match body lo s with
    | ⟨s1, none⟩ => forLoop body (lo + 1) len s1
    | ⟨s1, some e⟩ => ⟨s1, some e⟩

end Loops

section GraphModel

variable {α : Type} [LinearOrderedField α] {T : TGraphLike}

/-- `g->GetN()`. -/
def Graph.GetN (g : Graph T α) : Nat := g.pts.length

/-- Modelled from the spec: the constructor `TGraphLike(Int_t n)` of the ROOT
library (not under src/), "resized empty storage": `n` zero points (none for
`n ≤ 0`), default name and title, `kIsSortedX` clear. -/
def Graph.make (T : TGraphLike) (α : Type) [LinearOrderedField α] (n : Int) : Graph T α :=
  { fName := "Graph", fTitle := "Graph", xTitle := "", yTitle := "",
    markerStyle := 1, kIsSortedX := false,
    pts := List.replicate n.toNat Sample.zero }

/-- Modelled from the spec: `TGraph::Set(Int_t n)` of the ROOT library (not
under src/), "growing target's storage": the first `n` points are kept and
new slots are zero. -/
def Graph.Set (g : Graph T α) (n : Nat) : Graph T α :=
  { g with pts := g.pts.take n ++ List.replicate (n - g.pts.length) Sample.zero }

/-- Modelled from the spec: `TGraph::SetPoint(i, x, y)` of the ROOT library
(not under src/): grows the graph to `i + 1` points when needed, then writes
`fX[i]` and `fY[i]`. -/
def Graph.SetPoint (g : Graph T α) (i : Nat) (x y : α) : Graph T α :=
  let g1 := if i < g.pts.length then g else g.Set (i + 1)
  { g1 with pts := g1.pts.modify (fun p => { p with x := x, y := y }) i }

/-- Modelled from the spec: `TGraphErrors::SetPointError(i, ex, ey)` of the
ROOT library (not under src/): grows the graph to `i + 1` points when needed,
then writes `fEX[i]` and `fEY[i]`. -/
def Graph.SetPointError (g : Graph T α) (i : Nat) (ex ey : α) : Graph T α :=
  let g1 := if i < g.pts.length then g else g.Set (i + 1)
  { g1 with pts := g1.pts.modify (fun p => { p with ex := ex, ey := ey }) i }

/-- `rs::graph::Create(n, name, title, x_title, y_title, style)`; a null
`const Char_t*` is `none`. -/
def Create (T : TGraphLike) (n : Int) (name title x_title y_title : Option String)
    (style : Nat) : Except Abort (Graph T α) :=
  match x_title, y_title with
  | some xt, some yt =>
    let g0 : Graph T α := Graph.make T α n
    let g1 : Graph T α := { g0 with fTitle := match title with
                                              | some t => t
                                              | none => yt }
    let g2 : Graph T α := { g1 with fName := match name with
                                             | some nm => nm
                                             | none => g1.fTitle }
    .ok { g2 with xTitle := xt, yTitle := yt, markerStyle := style }
  | _, _ => .error .invalid_argument

/-- `rs::graph::Create(const TGraphLike* g)`.  The call `Create(n, ...)` in its
body names no template argument, so it is `Create<TGraph>` and makes a
`unique_ptr<TGraph>`; that converts to the return type
`unique_ptr<TGraphLike>` for `TGraphLike = TGraph` and for no other type, so
the overload exists for a plain `TGraph` only.  The getters never return
null. -/
def CreateFrom (g : Graph .TGraph α) : Except Abort (Graph .TGraph α) :=
  Create .TGraph (g.GetN : Int) (some g.fName) (some g.fTitle) (some g.xTitle)
    (some g.yTitle) kFullCircle

/-- A `TGraphErrors*` converted to `const TGraph*`: the same object seen
through its base class. -/
def Graph.asTGraph (g : Graph .TGraphErrors α) : Graph .TGraph α :=
  { fName := g.fName, fTitle := g.fTitle, xTitle := g.xTitle, yTitle := g.yTitle,
    markerStyle := g.markerStyle, kIsSortedX := g.kIsSortedX, pts := g.pts }

/-- The running sums `x_sum`, `y_sum`, `ex_sum2`, `ey_sum2` of one block (the
last two exist in the `TGraphErrors` instantiation only). -/
structure BlockSums (α : Type) where
  x_sum : α
  y_sum : α
  ex_sum2 : α
  ey_sum2 : α

/-- One iteration of the inner loop of `MakeGraphCoarseGrained`: reads point
`i` of `g` and adds it to the running sums. -/
def sumStep (g : Graph T α) (i : Nat) (s : BlockSums α) : Run (BlockSums α) :=
  match g.pts[i]? with
  | none => ⟨s, some .out_of_bounds⟩
  | some p =>
    if T.hasErrors then
      ⟨{ x_sum := s.x_sum + p.x, y_sum := s.y_sum + p.y,
         ex_sum2 := s.ex_sum2 + p.ex ^ 2, ey_sum2 := s.ey_sum2 + p.ey ^ 2 }, none⟩
    else
      ⟨{ s with x_sum := s.x_sum + p.x, y_sum := s.y_sum + p.y }, none⟩

/-- One iteration of the outer loop of `MakeGraphCoarseGrained`: sums block
`i_grained` of `g` and stores its pooled point in `g_grained`.  The function
`sqrt` stands for `std::sqrt`. -/
def grainStep (sqrt : α → α) (g : Graph T α) (step_grained : Int) (i_grained : Nat)
    (g_grained : Graph T α) : Run (Graph T α) :=
  let end_index : Int := ((i_grained : Int) + 1) * step_grained
  let start : Int := (i_grained : Int) * step_grained
  match forLoop (sumStep g) start.toNat (end_index - start).toNat ⟨0, 0, 0, 0⟩ with
  | ⟨_, some e⟩ => ⟨g_grained, some e⟩
  | ⟨s, none⟩ =>
    let g1 := g_grained.SetPoint i_grained (s.x_sum / (step_grained : α))
      (s.y_sum / (step_grained : α))
    if T.hasErrors then
      ⟨g1.SetPointError i_grained (sqrt (s.ex_sum2 / (step_grained : α)))
        (sqrt (s.ey_sum2 / (step_grained : α) / ((step_grained - 1 : Int) : α))), none⟩
    else
      ⟨g1, none⟩

/-- `rs::graph::MakeGraphCoarseGrained(g, step_grained)`.  The statement
`return std::move(Create(g));` is under an ordinary `if`, so the template is
instantiated with it for every `TGraphLike`, and `Create(g)` exists for
`TGraphLike = TGraph` only (see `CreateFrom`): the plain instantiation is the
only one the program has.  An error-carrying series reaches it as a
`const TGraph*` (`Graph.asTGraph`).  The body of the loop, `grainStep`, keeps
both branches of the `if constexpr`. -/
def MakeGraphCoarseGrained (sqrt : α → α) (g : Graph .TGraph α) (step_grained : Int) :
    Except Abort (Graph .TGraph α) :=
  if step_grained ≤ 0 then .error .invalid_argument
  else if step_grained = 1 then CreateFrom g
  else
    let n_grained : Int := Int.tdiv (g.GetN : Int) step_grained
    match Create .TGraph n_grained (some g.fName) (some g.fTitle) (some g.xTitle)
        (some g.yTitle) kFullCircle with
    | .error e => .error e
    | .ok g_grained =>
      match forLoop (grainStep sqrt g step_grained) 0 n_grained.toNat g_grained with
      | ⟨g_out, none⟩ => .ok g_out
      | ⟨_, some e⟩ => .error e

/-- Block `k` of `pts` for block size `step`: the points with indices in
`[k * step, (k + 1) * step)`. -/
def block (pts : List (Sample α)) (step k : Nat) : List (Sample α) :=
  (pts.drop (k * step)).take step

/-- The running sums after the points of `b` have been added to `acc`. -/
def addBlock (T : TGraphLike) (acc : BlockSums α) (b : List (Sample α)) : BlockSums α :=
  if T.hasErrors then
    { x_sum := acc.x_sum + (b.map (fun p => p.x)).sum,
      y_sum := acc.y_sum + (b.map (fun p => p.y)).sum,
      ex_sum2 := acc.ex_sum2 + (b.map (fun p => p.ex ^ 2)).sum,
      ey_sum2 := acc.ey_sum2 + (b.map (fun p => p.ey ^ 2)).sum }
  else
    { acc with x_sum := acc.x_sum + (b.map (fun p => p.x)).sum,
               y_sum := acc.y_sum + (b.map (fun p => p.y)).sum }

/-- The point that pools the block `b`: means of `x` and `y`, and for a
`TGraphErrors` the pooled errors (zero, the fill value, otherwise). -/
def pooled (T : TGraphLike) (sqrt : α → α) (step : Nat) (b : List (Sample α)) : Sample α :=
  { x := (b.map (fun p => p.x)).sum / (step : α),
    y := (b.map (fun p => p.y)).sum / (step : α),
    ex := if T.hasErrors then sqrt ((b.map (fun p => p.ex ^ 2)).sum / (step : α)) else 0,
    ey := if T.hasErrors then
            sqrt ((b.map (fun p => p.ey ^ 2)).sum / (step : α) / ((step : α) - 1))
          else 0 }

/-- Modelled from the spec: `TGraph::Sort()` of the ROOT library (not under
src/): "stable-sorts all samples by x ascending, keeping each sample's (y,
and ex/ey if present) attached to its x, and sets the flag true". -/
def Graph.Sort (g : Graph T α) : Graph T α :=
  { g with kIsSortedX := true,
           pts := g.pts.insertionSort (fun p q => p.x ≤ q.x) }

/-- `rs::graph::SortX(g)`. -/
def SortX (g : Graph T α) : Graph T α :=
  if !g.kIsSortedX then g.Sort else g

/-- One iteration of the loop of `InvertX` on the arrays of the graph: the
check of `x[i]`, then the in-place update of `x[i]` (and of `ex[i]`, from the
updated `x[i]`, in the `TGraphErrors` instantiation). -/
def invertStep (T : TGraphLike) (i : Nat) (pts : List (Sample α)) : Run (List (Sample α)) :=
  match pts[i]? with
  | none => ⟨pts, some .out_of_bounds⟩
  | some p =>
    if p.x ≤ 0 then ⟨pts, some .range_error⟩
    else
      let x_new : α := 1 / p.x
      if T.hasErrors then
        ⟨pts.set i { p with x := x_new, ex := p.ex / x_new ^ 2 }, none⟩
      else
        ⟨pts.set i { p with x := x_new }, none⟩

/-- `rs::graph::InvertX(g)`: the bit `kIsSortedX` is cleared after the loop,
which a throw skips. -/
def InvertX (g : Graph T α) : Run (Graph T α) :=
  match forLoop (invertStep T) 0 g.GetN g.pts with
  | ⟨pts, some e⟩ => ⟨{ g with pts := pts }, some e⟩
  | ⟨pts, none⟩ => ⟨{ g with pts := pts, kIsSortedX := false }, none⟩

/-- The point `p` after one successful iteration of the loop of `InvertX`. -/
def invertPoint (T : TGraphLike) (p : Sample α) : Sample α :=
  if T.hasErrors then { p with x := 1 / p.x, ex := p.ex / (1 / p.x) ^ 2 }
  else { p with x := 1 / p.x }

/-- The points inverted up to, and not including, the first one with
`x ≤ 0`; the points from there on as they are. -/
def invertPrefix (T : TGraphLike) : List (Sample α) → List (Sample α)
  | [] => []
  | p :: ps => if p.x ≤ 0 then p :: ps else invertPoint T p :: invertPrefix T ps

/-- The two objects `PushGraph` works on: the source behind the pointer to
const and the target. -/
structure PushState (T : TGraphLike) (α : Type) where
  g_pushed : Graph T α
  g : Graph T α

/-- One iteration of the copy loop of `PushGraph`: point `i` of the source is
written to slot `n + i` of the target. -/
def pushStep (g_pushed : Graph T α) (n : Nat) (i : Nat) (g : Graph T α) : Run (Graph T α) :=
  match g_pushed.pts[i]? with
  | none => ⟨g, some .out_of_bounds⟩
  | some p =>
    let g1 := g.SetPoint (n + i) p.x p.y
    if T.hasErrors then ⟨g1.SetPointError (n + i) p.ex p.ey, none⟩ else ⟨g1, none⟩

/-- What one iteration of the copy loop of `PushGraph` leaves in the new slot
for the source point `p`: `x` and `y`, and for a `TGraphErrors` also `ex` and
`ey` (zero, the fill value, otherwise). -/
def copyPoint (T : TGraphLike) (p : Sample α) : Sample α :=
  if T.hasErrors then p else { p with ex := 0, ey := 0 }

/-- The element `a[i]` of a C array for a signed index `i`. -/
def readAt (a : List (Sample α)) (i : Int) : Option (Sample α) :=
  if i < 0 then none else a[i.toNat]?

/-- `rs::graph::PushGraph(g_pushed, g)`.  The join test `g->GetX()[n - 1] <
x_pushed[0]` is evaluated only when both bits are set (`&&` short-circuits). -/
def PushGraph (st : PushState T α) : Run (PushState T α) :=
  let n := st.g.GetN
  let n_pushed := st.g_pushed.GetN
  let g0 := st.g.Set (n + n_pushed)
  match forLoop (pushStep st.g_pushed n) 0 n_pushed g0 with
  | ⟨g1, some e⟩ => ⟨{ st with g := g1 }, some e⟩
  | ⟨g1, none⟩ =>
    if g1.kIsSortedX && st.g_pushed.kIsSortedX then
      match readAt g1.pts ((n : Int) - 1), readAt st.g_pushed.pts 0 with
      | some a, some b => ⟨{ st with g := { g1 with kIsSortedX := decide (a.x < b.x) } }, none⟩
      | _, _ => ⟨{ st with g := g1 }, some .out_of_bounds⟩
    else
      ⟨{ st with g := { g1 with kIsSortedX := false } }, none⟩

end GraphModel

section Spectral

variable {α : Type} [LinearOrderedField α]

/-- The vector `std::vector<Double_t> v(n)` after a library call has written
its output `out` into it: `n` slots, zero where nothing was written. -/
def filled (n : Nat) (out : List α) : List α :=
  (List.range n).map (fun i => out.getD i 0)

/-- One iteration of the polar loop of `FFT`.  Both `re` and `im` are read
from `re_vec[i]`, as in the source. -/
def polarStep (sqrt : α → α) (atan2 : α → α → α) (i : Nat) (v : List α × List α) :
    Run (List α × List α) :=
  match v.1[i]? with
  | none => ⟨v, some .out_of_bounds⟩
  | some re_i =>
    let re : α := re_i
    let im : α := re_i
    ⟨(v.1.set i (sqrt (re ^ 2 + im ^ 2)), v.2.set i (atan2 im re)), none⟩

/-- `rs::math::FFT(y, abs_arg)`.  The parameter `r2c` is the "R2C" plan of
`TVirtualFFT` (what `GetPointsComplex` delivers for the input), `sqrt` and
`atan2` are `TMath::Sqrt` and `TMath::ATan2`. -/
def FFT (r2c : List α → List α × List α) (sqrt : α → α) (atan2 : α → α → α)
    (y : List α) (abs_arg : Bool) : List α × List α :=
  let out := r2c y
  let re_vec := filled y.length out.1
  let im_vec := filled y.length out.2
  if abs_arg then (forLoop (polarStep sqrt atan2) 0 y.length (re_vec, im_vec)).state
  else (re_vec, im_vec)

/-- `rs::math::IFFT(y_pair, abs_arg)`.  The parameter `c2r` is the "C2R" plan
of `TVirtualFFT` of the given size (what `GetPoints` delivers). -/
def IFFT (c2r : Nat → List α → List α → List α) (y_pair : List α × List α)
    (abs_arg : Bool) : Except Abort (List α) :=
  if abs_arg then .error .runtime_error
  else
    let re_vec := y_pair.1
    let im_vec := y_pair.2
    let size := re_vec.length
    let result := filled size (c2r size re_vec im_vec)
    .ok (result.map (fun elem => elem / (size : α)))

/-- Modelled from the spec: the forward plan of `TVirtualFFT` (ROOT library,
not under src/), "the discrete transform of a real-valued sequence into
complex components sized identically to the input", unnormalised:
`re k = Σ j, y j * cos (2π j k / n)` and `im k = - Σ j, y j * sin (2π j k / n)`.
The tables `c m` and `s m` hold `cos (2π m / n)` and `sin (2π m / n)`. -/
def dftR2C (c s : Nat → α) (y : List α) : List α × List α :=
  let n := y.length
  ((List.range n).map (fun k => ∑ j in Finset.range n, y.getD j 0 * c (j * k)),
   (List.range n).map (fun k => - ∑ j in Finset.range n, y.getD j 0 * s (j * k)))

/-- Modelled from the spec: the backward plan of `TVirtualFFT` (ROOT library,
not under src/), "the inverse transform", unnormalised: the real part of
`Σ k, (re k + i im k) * exp (2π i j k / n)`. -/
def dftC2R (c s : Nat → α) (n : Nat) (re im : List α) : List α :=
  (List.range n).map
    (fun j => ∑ k in Finset.range n, (re.getD k 0 * c (j * k) - im.getD k 0 * s (j * k)))

/-- What the tables of a transform of size `n` satisfy: `(c m, s m)` is the
`m`-th power of a primitive `n`-th root of unity on the unit circle. -/
structure IsTwiddle (n : Nat) (c s : Nat → α) : Prop where
  zero : c 0 = 1 ∧ s 0 = 0
  add : ∀ a b, c (a + b) = c a * c b - s a * s b ∧ s (a + b) = s a * c b + c a * s b
  unit : ∀ a, c a ^ 2 + s a ^ 2 = 1
  period : c n = 1 ∧ s n = 0
  primitive : ∀ d, 0 < d → d < n → ¬ (c d = 1 ∧ s d = 0)

/-- The cosine table of size 4. -/
def cos4 (m : Nat) : α :=
  match m % 4 with
  | 0 => 1
  | 2 => -1
  | _ => 0

/-- The sine table of size 4. -/
def sin4 (m : Nat) : α :=
  match m % 4 with
  | 1 => 1
  | 3 => -1
  | _ => 0

end Spectral

section LogAndFlag

variable {α : Type} [LinearOrderedField α] {T : TGraphLike}

/-- One iteration of the loop of `LogY` on the array `y`.  The function `log`
stands for `std::log` and the value `nan` for `std::nan("")`. -/
def logStep (log : α → α) (nan : α) (i : Nat) (pts : List (Sample α)) :
    Run (List (Sample α)) :=
  match pts[i]? with
  | none => ⟨pts, some .out_of_bounds⟩
  | some p =>
    if p.y > 0 then ⟨pts.set i { p with y := log p.y }, none⟩
    else ⟨pts.set i { p with y := nan }, none⟩

/-- `rs::graph::LogY(g)`; the parameter type `TGraph*` accepts every graph. -/
def LogY (log : α → α) (nan : α) (g : Graph T α) : Run (Graph T α) :=
  match forLoop (logStep log nan) 0 g.GetN g.pts with
  | ⟨pts, r⟩ => ⟨{ g with pts := pts }, r⟩

/-- The point `p` after one iteration of the loop of `LogY`. -/
def logPoint (log : α → α) (nan : α) (p : Sample α) : Sample α :=
  if p.y > 0 then { p with y := log p.y } else { p with y := nan }

/-- The bit `kIsSortedX` tells the truth: when it is set, the `x` sequence is
non-decreasing. -/
def FlagSound (g : Graph T α) : Prop :=
  g.kIsSortedX = true → (g.pts.map (fun p => p.x)).Pairwise (fun a b => a ≤ b)

instance (g : Graph T α) : Decidable (FlagSound g) := by
  unfold FlagSound
  infer_instance

end LogAndFlag

/-! ## TreeHelper -/

/-- The alternative a `LeafType = std::variant<Bool_t, Int_t, Double_t>` holds.
The constructor stores an uninitialised local in each slot, so a slot is
described by its active alternative alone. -/
inductive LeafType where
  | Bool_t
  | Int_t
  | Double_t
  deriving DecidableEq

/-- Modelled from the spec: a branch made by `TTree::Branch(name, address,
leaflist)` of the ROOT library (not under src/), the row sink's
"add_column(name, type)": the column name, the slot the address points to
(its key in `vals_` and the alternative the pointer has) and the leaf list. -/
structure Branch where
  name : List Char
  slot : List Char
  type : LeafType
  leaflist : List Char
  deriving DecidableEq

/-- The members of `rs::TreeHelper`: the branches of `tree_` in creation order
and the entries of the `std::unordered_map` `vals_` (one per key).  A
`std::string` is a list of `char`. -/
structure TreeHelper where
  tree_ : List Branch
  vals_ : List (List Char × LeafType)
  deriving DecidableEq

/-- `vals_[key] = val`: overwrites the entry of `key`, or adds one. -/
def mapAssign : List (List Char × LeafType) → List Char → LeafType →
    List (List Char × LeafType)
  | [], key, val => [(key, val)]
  | (k, v) :: m, key, val =>
    if k = key then (key, val) :: m else (k, v) :: mapAssign m key val

/-- `vals_.find(key)`. -/
def mapFind : List (List Char × LeafType) → List Char → Option LeafType
  | [], _ => none
  | (k, v) :: m, key => if k = key then some v else mapFind m key

/-- One `case` body of the constructor: the slot `vals_[bname]` is assigned a
value of alternative `t`, and a branch named `bname.substr(0, size - 2)` is
bound to it with leaf list `bname`. -/
def TreeHelper.addBranch (st : TreeHelper) (bname : List Char) (t : LeafType) : TreeHelper :=
  { tree_ := st.tree_ ++ [{ name := bname.take (bname.length - 2), slot := bname, type := t,
                            leaflist := bname }],
    vals_ := mapAssign st.vals_ bname t }

/-- The body of the loop of `TreeHelper(const std::vector<std::string>&)` for
one `bname`: the length check, then the `switch (bname.back())`. -/
def declareStep (st : TreeHelper) (bname : List Char) : Except Abort TreeHelper :=
  if bname.length ≤ 2 then .error .runtime_error
  else
    match bname.getLast? with
    | none => .error .out_of_bounds
    | some c =>
      if c = 'B' then .ok (st.addBranch bname .Bool_t)
      else if c = 'I' then .ok (st.addBranch bname .Int_t)
      else if c = 'D' then .ok (st.addBranch bname .Double_t)
      else .error .runtime_error

/-- The loop `for (const std::string bname : branch_names)`; a throw leaves
the constructor. -/
def declareLoop : List (List Char) → TreeHelper → Except Abort TreeHelper
  | [], st => .ok st
  | bname :: rest, st =>
    match declareStep st bname with
    | .error e => .error e
    | .ok st1 => declareLoop rest st1

/-- `rs::TreeHelper::TreeHelper(const std::vector<std::string>& branch_names)`:
starts from a new tree without branches and an empty `vals_`. -/
def TreeHelper.ofBranchNames (branch_names : List (List Char)) : Except Abort TreeHelper :=
  declareLoop branch_names ⟨[], []⟩

/-- The type a trailing code stands for: `B`, `I`, `D`. -/
def codeType (c : Char) : Option LeafType :=
  if c = 'B' then some .Bool_t
  else if c = 'I' then some .Int_t
  else if c = 'D' then some .Double_t
  else none

/-- The type decoded from the last character of a spec. -/
def specType (spec : List Char) : Option LeafType :=
  match spec.getLast? with
  | none => none
  | some c => codeType c

/-- The column name of a spec: the spec without its 2-character suffix. -/
def specName (spec : List Char) : List Char :=
  spec.take (spec.length - 2)

/-- A spec the constructor accepts: at least 3 characters, the last one of
`B`, `I`, `D`. -/
def ValidSpec (spec : List Char) : Prop :=
  3 ≤ spec.length ∧
    (spec.getLast? = some 'B' ∨ spec.getLast? = some 'I' ∨ spec.getLast? = some 'D')

instance (spec : List Char) : Decidable (ValidSpec spec) := by
  unfold ValidSpec
  infer_instance

/-! ## Concrete inputs -/

/-- A two-point `TGraphErrors` over the rationals. -/
def exampleErr2 : Graph .TGraphErrors ℚ :=
  { fName := "g", fTitle := "t", xTitle := "x", yTitle := "y", markerStyle := 20,
    kIsSortedX := true, pts := [⟨2, 5, 1, 3⟩, ⟨4, 7, 2, 1⟩] }

/-- A two-point `TGraphErrors` flagged as sorted whose second point has
`x = 0`. -/
def exampleZeroX : Graph .TGraphErrors ℚ :=
  { fName := "g", fTitle := "t", xTitle := "x", yTitle := "y", markerStyle := 20,
    kIsSortedX := true, pts := [⟨2, 5, 1, 3⟩, ⟨0, 7, 2, 1⟩] }

/-- A three-point `TGraphErrors` flagged as sorted whose first `x` is 5. -/
def exampleErr3 : Graph .TGraphErrors ℚ :=
  { fName := "h", fTitle := "t", xTitle := "x", yTitle := "y", markerStyle := 20,
    kIsSortedX := true, pts := [⟨5, 6, 0, 3⟩, ⟨7, 8, 4, 1⟩, ⟨9, 10, 1, 1⟩] }

/-- A two-point plain `TGraph` over the rationals: `(2, 5), (4, 7)`. -/
def examplePlain2 : Graph .TGraph ℚ :=
  { fName := "g", fTitle := "t", xTitle := "x", yTitle := "y", markerStyle := 20,
    kIsSortedX := true, pts := [⟨2, 5, 0, 0⟩, ⟨4, 7, 0, 0⟩] }

/-- A five-point plain `TGraph` over the rationals. -/
def examplePlain5 : Graph .TGraph ℚ :=
  { fName := "g", fTitle := "t", xTitle := "x", yTitle := "y", markerStyle := 20,
    kIsSortedX := false,
    pts := [⟨1, 2, 0, 0⟩, ⟨3, 4, 0, 0⟩, ⟨5, 6, 0, 0⟩, ⟨7, 8, 0, 0⟩, ⟨9, 10, 0, 0⟩] }

/-- A five-point `TGraphErrors` over the rationals. -/
def exampleErr5 : Graph .TGraphErrors ℚ :=
  { fName := "g", fTitle := "t", xTitle := "x", yTitle := "y", markerStyle := 20,
    kIsSortedX := false,
    pts := [⟨1, 2, 1, 1⟩, ⟨3, 4, 2, 1⟩, ⟨5, 6, 0, 3⟩, ⟨7, 8, 4, 1⟩, ⟨9, 10, 1, 1⟩] }

/-- An empty `TGraphErrors` with the bit `kIsSortedX` set, as `SortX` leaves
an empty graph. -/
def exampleEmptySorted : Graph .TGraphErrors ℚ :=
  { fName := "e", fTitle := "t", xTitle := "x", yTitle := "y", markerStyle := 20,
    kIsSortedX := true, pts := [] }

/-- The spec `x/D`. -/
def specXD : List Char := ['x', '/', 'D']

/-- The spec `x/I`. -/
def specXI : List Char := ['x', '/', 'I']

/-- The spec `n/B`. -/
def specNB : List Char := ['n', '/', 'B']

end rs

namespace rs

/-! ## Loops -/

section LoopLemmas

variable {σ : Type}

theorem forLoop_zero (body : Nat → σ → Run σ) (lo : Nat) (s : σ) :
    forLoop body lo 0 s = ⟨s, none⟩ := rfl

theorem forLoop_succ_ok (body : Nat → σ → Run σ) (lo len : Nat) (s s1 : σ)
    (h : body lo s = ⟨s1, none⟩) :
    forLoop body lo (len + 1) s = forLoop body (lo + 1) len s1 := by
  simp [forLoop, h]

theorem forLoop_succ_raise (body : Nat → σ → Run σ) (lo len : Nat) (s s1 : σ) (e : Abort)
    (h : body lo s = ⟨s1, some e⟩) :
    forLoop body lo (len + 1) s = ⟨s1, some e⟩ := by
  simp [forLoop, h]

end LoopLemmas

/-! ## Lists -/

section ListLemmas

variable {β : Type}

theorem modify_append_cons (f : β → β) (done rest : List β)
    (z : β) :
    (done ++ z :: rest).modify f done.length = done ++ f z :: rest := by
  induction done with
  | nil => simp [List.modify]
  | cons a done ih => simpa [List.modify] using ih

theorem set_append_cons (done rest : List β) (p q : β) :
    (done ++ p :: rest).set done.length q = done ++ q :: rest := by
  induction done with
  | nil => simp
  | cons a done ih => simp

theorem getElem?_append_cons (done rest : List β) (p : β) :
    (done ++ p :: rest)[done.length]? = some p := by
  induction done with
  | nil => simp
  | cons a done ih => simpa using ih

end ListLemmas

/-! ## Blocks and signed reads -/

section Blocks

variable {α : Type}

theorem block_getElem? (pts : List (Sample α)) (step k j : Nat) (hj : j < step) :
    (block pts step k)[j]? = pts[k * step + j]? := by
  simp [block, List.getElem?_take, hj, List.getElem?_drop]

theorem block_length (pts : List (Sample α)) (step k : Nat) (h : (k + 1) * step ≤ pts.length) :
    (block pts step k).length = step := by
  have : k * step + step ≤ pts.length := by linarith [Nat.succ_mul k step]
  simp [block]; omega

theorem block_congr (l1 l2 : List (Sample α)) (s k : Nat)
    (h : ∀ i, i < (k + 1) * s → l1[i]? = l2[i]?) : block l1 s k = block l2 s k := by
  apply List.ext_getElem?
  intro j
  by_cases hj : j < s
  · rw [block_getElem? _ _ _ _ hj, block_getElem? _ _ _ _ hj]
    apply h
    have : (k + 1) * s = k * s + s := by ring
    omega
  · simp [block, List.getElem?_take, hj]

theorem readAt_pred_append (l1 l2 : List (Sample α)) (h : l1 ≠ []) :
    readAt (l1 ++ l2) ((l1.length : Int) - 1) = some (l1.getLast h) := by
  have hpos : 0 < l1.length := List.length_pos.mpr h
  have h1 : ¬ ((l1.length : Int) - 1 < 0) := by omega
  have h2 : ((l1.length : Int) - 1).toNat = l1.length - 1 := by omega
  rw [readAt, if_neg h1, h2, List.getElem?_append_left (by omega),
    List.getLast_eq_getElem, List.getElem?_eq_getElem]

theorem readAt_zero (l : List (Sample α)) (h : l ≠ []) : readAt l 0 = some (l.head h) := by
  cases l with
  | nil => exact absurd rfl h
  | cons a l => simp [readAt]

end Blocks

/-! ## Create and coarse graining with step 1 -/

section CoarseGrainOne

variable {α : Type} [LinearOrderedField α] {T : TGraphLike}

theorem CreateFrom_eq (g : Graph .TGraph α) :
    CreateFrom g = .ok { fName := g.fName, fTitle := g.fTitle, xTitle := g.xTitle,
                         yTitle := g.yTitle, markerStyle := kFullCircle, kIsSortedX := false,
                         pts := List.replicate g.pts.length Sample.zero } := by
  simp [CreateFrom, Create, Graph.make, Graph.GetN]

/-- With `step_grained = 1` the result is the template copy of `g`: as many
points as `g`, every one of them zero, whatever the points of `g` are. -/
theorem MakeGraphCoarseGrained_one (sqrt : α → α) (g : Graph .TGraph α) :
    MakeGraphCoarseGrained sqrt g 1
      = .ok { fName := g.fName, fTitle := g.fTitle, xTitle := g.xTitle,
              yTitle := g.yTitle, markerStyle := kFullCircle, kIsSortedX := false,
              pts := List.replicate g.pts.length Sample.zero } := by
  simp [MakeGraphCoarseGrained, CreateFrom_eq]

end CoarseGrainOne

/-- C1, evaluated on the plain two-point series `(2, 5), (4, 7)`:
`MakeGraphCoarseGrained` with `step_grained = 1` returns two points with
`x = 0` and `y = 0`, not the two points of the input. -/
theorem MakeGraphCoarseGrained_one_examplePlain2 :
    ∃ out, MakeGraphCoarseGrained (fun v => v) examplePlain2 1 = .ok out
      ∧ out.pts.map (fun p => (p.x, p.y)) = [(0, 0), (0, 0)]
      ∧ out.pts.length = examplePlain2.pts.length
      ∧ out.pts.map (fun p => (p.x, p.y)) ≠ examplePlain2.pts.map (fun p => (p.x, p.y)) := by
  refine ⟨_, MakeGraphCoarseGrained_one _ _, ?_, ?_, ?_⟩
  · simp [examplePlain2, Sample.zero, List.replicate]
  · simp [examplePlain2]
  · norm_num [examplePlain2, Sample.zero, List.replicate, Prod.ext_iff]

/-! ## Coarse graining with a step of at least 2 -/

section CoarseGrain

variable {α : Type} [LinearOrderedField α] {T : TGraphLike}

theorem addBlock_cons (acc : BlockSums α) (p : Sample α) (b : List (Sample α)) :
    addBlock T (addBlock T acc [p]) b = addBlock T acc (p :: b) := by
  cases T <;> simp [addBlock, TGraphLike.hasErrors, add_assoc]

theorem forLoop_sumStep (g : Graph T α) :
    ∀ (len lo : Nat) (acc : BlockSums α), lo + len ≤ g.pts.length →
      forLoop (sumStep g) lo len acc = ⟨addBlock T acc ((g.pts.drop lo).take len), none⟩ := by
  intro len
  induction len with
  | zero =>
    intro lo acc _
    cases T <;> simp [forLoop, addBlock, TGraphLike.hasErrors]
  | succ len ih =>
    intro lo acc h
    have hlo : lo < g.pts.length := by omega
    have hstep : sumStep g lo acc = ⟨addBlock T acc [g.pts[lo]], none⟩ := by
      cases T <;> simp [sumStep, List.getElem?_eq_getElem hlo, addBlock, TGraphLike.hasErrors]
    rw [forLoop_succ_ok _ _ _ _ _ hstep, ih (lo + 1) _ (by omega)]
    rw [addBlock_cons, List.drop_eq_getElem_cons hlo, List.take_succ_cons]

theorem grainStep_eq (sqrt : α → α) (g : Graph T α) (s : Nat) (out : Graph T α)
    (done rest : List (Sample α)) (hpts : out.pts = done ++ Sample.zero :: rest)
    (hb : (done.length + 1) * s ≤ g.pts.length) :
    grainStep sqrt g (s : Int) done.length out
      = ⟨{ out with pts := done ++ pooled T sqrt s (block g.pts s done.length) :: rest },
          none⟩ := by
  have h1 : ((done.length : Int) * (s : Int)).toNat = done.length * s := by
    rw [← Int.natCast_mul, Int.toNat_natCast]
  have h2 : (((done.length : Int) + 1) * (s : Int) - (done.length : Int) * (s : Int)).toNat
      = s := by
    have : ((done.length : Int) + 1) * (s : Int) - (done.length : Int) * (s : Int)
        = (s : Int) := by ring
    rw [this, Int.toNat_natCast]
  have hb2 : done.length * s + s ≤ g.pts.length := by
    have : (done.length + 1) * s = done.length * s + s := by ring
    omega
  have hlt : done.length < out.pts.length := by simp [hpts]
  unfold grainStep
  simp only [h1, h2]
  rw [forLoop_sumStep g s (done.length * s) _ hb2]
  cases T <;>
    simp [Graph.SetPoint, Graph.SetPointError, hlt, hpts, modify_append_cons, pooled, block,
      addBlock, TGraphLike.hasErrors, Sample.zero]

theorem forLoop_grainStep (sqrt : α → α) (g : Graph T α) (s : Nat) :
    ∀ (len : Nat) (done : List (Sample α)) (out : Graph T α),
      out.pts = done ++ List.replicate len Sample.zero →
      (done.length + len) * s ≤ g.pts.length →
      forLoop (grainStep sqrt g (s : Int)) done.length len out
        = ⟨{ out with pts := done ++ (List.range' done.length len).map
                                (fun k => pooled T sqrt s (block g.pts s k)) }, none⟩ := by
  intro len
  induction len with
  | zero =>
    intro done out hpts _
    cases out
    simp only [List.replicate, List.append_nil] at hpts
    subst hpts
    simp [forLoop]
  | succ len ih =>
    intro done out hpts hb
    have hb1 : (done.length + 1) * s ≤ g.pts.length :=
      le_trans (Nat.mul_le_mul_right s (by omega)) hb
    have hstep := grainStep_eq sqrt g s out done (List.replicate len Sample.zero)
      (by simpa [List.replicate_succ] using hpts) hb1
    rw [forLoop_succ_ok _ _ _ _ _ hstep]
    have hih := ih (done ++ [pooled T sqrt s (block g.pts s done.length)])
      { out with pts := done ++ pooled T sqrt s (block g.pts s done.length)
                          :: List.replicate len Sample.zero }
      (by simp) (by simpa [Nat.add_assoc, Nat.add_comm 1 len] using hb)
    simp only [List.length_append, List.length_singleton] at hih
    rw [hih]
    simp [List.range'_succ]

/-- What `MakeGraphCoarseGrained` returns for a step of at least 2: the
identity strings of `g`, and one pooled point per complete block. -/
theorem MakeGraphCoarseGrained_eq (sqrt : α → α) (g : Graph .TGraph α) (s : Nat)
    (hs : 2 ≤ s) :
    MakeGraphCoarseGrained sqrt g (s : Int)
      = .ok { fName := g.fName, fTitle := g.fTitle, xTitle := g.xTitle, yTitle := g.yTitle,
              markerStyle := kFullCircle, kIsSortedX := false,
              pts := (List.range (g.pts.length / s)).map
                       (fun k => pooled .TGraph sqrt s (block g.pts s k)) } := by
  have h0 : ¬ ((s : Int) ≤ 0) := by omega
  have h1 : ¬ ((s : Int) = 1) := by omega
  have hb : (0 + g.pts.length / s) * s ≤ g.pts.length := by
    simpa using Nat.div_mul_le_self g.pts.length s
  have hloop := forLoop_grainStep sqrt g s (g.pts.length / s) []
    { fName := g.fName, fTitle := g.fTitle, xTitle := g.xTitle, yTitle := g.yTitle,
      markerStyle := kFullCircle, kIsSortedX := false,
      pts := List.replicate (g.pts.length / s) Sample.zero } (by simp) hb
  simp only [List.length_nil, List.nil_append] at hloop
  have hd : (Int.tdiv (g.pts.length : Int) (s : Int)).toNat = g.pts.length / s := rfl
  simp [MakeGraphCoarseGrained, h0, h1, Create, Graph.make, Graph.GetN, hd, hloop,
    List.range_eq_range']

theorem pooled_means (sqrt : α → α) (g : Graph T α) (s : Nat) (k : Nat)
    (hk : k < g.pts.length / s) :
    ((List.range (g.pts.length / s)).map (fun k => pooled T sqrt s (block g.pts s k)))[k]?
      = some (pooled T sqrt s (block g.pts s k)) := by
  simp [List.getElem?_range hk]

theorem MakeGraphCoarseGrained_tail (sqrt : α → α) (g : Graph .TGraph α) (s : Nat)
    (hs : 2 ≤ s)
    (rest : List (Sample α)) (hrest : rest.length < s) :
    MakeGraphCoarseGrained sqrt
        { g with pts := g.pts.take (g.pts.length / s * s) ++ rest } (s : Int)
      = MakeGraphCoarseGrained sqrt g (s : Int) := by
  have hle : g.pts.length / s * s ≤ g.pts.length := Nat.div_mul_le_self _ _
  have hlen : (g.pts.take (g.pts.length / s * s) ++ rest).length / s = g.pts.length / s := by
    rw [List.length_append, List.length_take, Nat.min_eq_left hle, Nat.add_comm,
      Nat.add_mul_div_right _ _ (by omega : 0 < s), Nat.div_eq_of_lt hrest, Nat.zero_add]
  rw [MakeGraphCoarseGrained_eq sqrt _ s hs, MakeGraphCoarseGrained_eq sqrt g s hs]
  simp only [hlen]
  congr 2
  apply List.map_congr_left
  intro k hk
  rw [List.mem_range] at hk
  congr 1
  apply block_congr
  intro i hi
  have hi2 : i < g.pts.length / s * s :=
    lt_of_lt_of_le hi (Nat.mul_le_mul_right s hk)
  rw [List.getElem?_append_left (by simp; omega), List.getElem?_take_of_lt hi2]

/-- C2: for every series `g` of `n` points (as the one instantiation of the
template receives it: a plain `TGraph`, or any other graph through
`const TGraph*`) and every step of at least 2,
`MakeGraphCoarseGrained` succeeds and returns exactly `floor(n / step)` points;
point `k` has the sum of `x` over block `k` divided by `step` as its `x`, and
the same for `y`, where block `k` holds the `step` points of `g` with indices
in `[k * step, (k + 1) * step)`; the trailing `n mod step` points influence
nothing: replacing them by any fewer than `step` points gives the same
result. -/
theorem MakeGraphCoarseGrained_block_means (sqrt : α → α) (g : Graph .TGraph α) (step : Int)
    (hstep : 2 ≤ step) :
    ∃ out, MakeGraphCoarseGrained sqrt g step = .ok out
      ∧ out.pts.length = g.pts.length / step.toNat
      ∧ (∀ k, k < g.pts.length / step.toNat →
          ∃ p, out.pts[k]? = some p
            ∧ p.x = ((block g.pts step.toNat k).map (fun q => q.x)).sum / (step : α)
            ∧ p.y = ((block g.pts step.toNat k).map (fun q => q.y)).sum / (step : α)
            ∧ (block g.pts step.toNat k).length = step.toNat
            ∧ ∀ j, j < step.toNat →
                (block g.pts step.toNat k)[j]? = g.pts[k * step.toNat + j]?)
      ∧ (∀ rest : List (Sample α), rest.length < step.toNat →
          MakeGraphCoarseGrained sqrt
            { g with pts := g.pts.take (g.pts.length / step.toNat * step.toNat) ++ rest } step
            = .ok out) := by
  obtain ⟨s, rfl⟩ := Int.eq_ofNat_of_zero_le (by omega : 0 ≤ step)
  have hs : 2 ≤ s := by omega
  simp only [Int.toNat_natCast, Int.cast_natCast]
  refine ⟨_, MakeGraphCoarseGrained_eq sqrt g s hs, by simp, ?_, ?_⟩
  · intro k hk
    refine ⟨_, pooled_means sqrt g s k hk, rfl, rfl, ?_, ?_⟩
    · apply block_length
      exact le_trans (Nat.mul_le_mul_right s hk) (Nat.div_mul_le_self _ _)
    · intro j hj
      exact block_getElem? _ _ _ _ hj
  · intro rest hrest
    rw [MakeGraphCoarseGrained_tail sqrt g s hs rest hrest]
    exact MakeGraphCoarseGrained_eq sqrt g s hs

end CoarseGrain

/-- Witness for C2 on the plain five-point series with step 2: two points
come out. -/
theorem MakeGraphCoarseGrained_block_means_witness :
    (2 : Int) ≤ 2 ∧
      ∃ out, MakeGraphCoarseGrained (fun v => v) examplePlain5 2 = .ok out
        ∧ out.pts.length = 2 := by
  obtain ⟨out, hout, hlen, _⟩ :=
    MakeGraphCoarseGrained_block_means (fun v => v) examplePlain5 2 (by decide)
  exact ⟨by decide, out, hout, by simpa [examplePlain5] using hlen⟩

/-- C3, evaluated on the five-point error-carrying series with step 2.  The
series reaches the one instantiation there is, the plain one, as a
`const TGraph*`: the result is a plain graph with the block means `(2, 3)`
and `(6, 7)` and no pooled errors.  The `TGraphErrors` branch of the loop body
would store `ex = sqrt (5 / 2)` and `ey = sqrt 1` for block 0, as the claim
says, but no instantiation runs it. -/
theorem MakeGraphCoarseGrained_exampleErr5 :
    ∀ sqrt : ℚ → ℚ,
      (∃ out : Graph .TGraph ℚ,
          MakeGraphCoarseGrained sqrt exampleErr5.asTGraph 2 = .ok out
            ∧ out.pts = [⟨2, 3, 0, 0⟩, ⟨6, 7, 0, 0⟩])
        ∧ (grainStep sqrt exampleErr5 2 0 (Graph.make .TGraphErrors ℚ 2)).state.pts[0]?
            = some ⟨2, 3, sqrt (5 / 2), sqrt 1⟩ := by
  intro sqrt
  constructor
  · refine ⟨_, MakeGraphCoarseGrained_eq sqrt exampleErr5.asTGraph 2 (by decide), ?_⟩
    norm_num [Graph.asTGraph, exampleErr5, pooled, block, TGraphLike.hasErrors, List.range,
      List.range.loop]
  · have h := grainStep_eq sqrt exampleErr5 2 (Graph.make .TGraphErrors ℚ 2) []
      [Sample.zero] (by simp [Graph.make, List.replicate]) (by decide)
    simp only [List.length_nil, Nat.cast_ofNat] at h
    rw [h]
    norm_num [exampleErr5, pooled, block, TGraphLike.hasErrors]

/-! ## InvertX -/

section Invert

variable {α : Type} [LinearOrderedField α] {T : TGraphLike}

theorem forLoop_invertStep :
    ∀ (rest done : List (Sample α)),
      forLoop (invertStep T) done.length rest.length (done ++ rest)
        = ⟨done ++ invertPrefix T rest,
            if rest.any (fun p => decide (p.x ≤ 0)) then some .range_error else none⟩ := by
  intro rest
  induction rest with
  | nil => intro done; simp [forLoop, invertPrefix]
  | cons p ps ih =>
    intro done
    have hget := getElem?_append_cons done ps p
    by_cases hp : p.x ≤ 0
    · have hstep : invertStep T done.length (done ++ p :: ps)
          = ⟨done ++ p :: ps, some .range_error⟩ := by
        simp [invertStep, hget, hp]
      rw [List.length_cons, forLoop_succ_raise _ _ _ _ _ _ hstep]
      simp [invertPrefix, hp]
    · have hstep : invertStep T done.length (done ++ p :: ps)
          = ⟨(done ++ [invertPoint T p]) ++ ps, none⟩ := by
        cases T <;>
          simp [invertStep, hget, hp, invertPoint, TGraphLike.hasErrors, set_append_cons]
      rw [List.length_cons, forLoop_succ_ok _ _ _ _ _ hstep]
      have := ih (done ++ [invertPoint T p])
      simp only [List.length_append, List.length_singleton] at this
      rw [this]
      simp [invertPrefix, hp]

theorem InvertX_eq (g : Graph T α) :
    InvertX g =
      if g.pts.any (fun p => decide (p.x ≤ 0)) then
        ⟨{ g with pts := invertPrefix T g.pts }, some .range_error⟩
      else
        ⟨{ g with pts := invertPrefix T g.pts, kIsSortedX := false }, none⟩ := by
  have h := forLoop_invertStep (T := T) g.pts []
  simp only [List.length_nil, List.nil_append] at h
  unfold InvertX
  rw [Graph.GetN, h]
  by_cases hany : g.pts.any (fun p => decide (p.x ≤ 0)) = true
  · simp only [hany, if_true]
  · simp only [hany]
    rfl

theorem invertPrefix_of_pos (l : List (Sample α)) (h : ∀ p ∈ l, 0 < p.x) :
    invertPrefix T l = l.map (invertPoint T) := by
  induction l with
  | nil => rfl
  | cons p ps ih =>
    have hp : ¬ p.x ≤ 0 := not_le.mpr (h p (by simp))
    simp [invertPrefix, hp, ih (fun q hq => h q (by simp [hq]))]

theorem any_nonpos_iff (l : List (Sample α)) :
    l.any (fun p => decide (p.x ≤ 0)) = true ↔ ∃ p ∈ l, p.x ≤ 0 := by
  simp

theorem invertPoint_invertPoint (p : Sample α) (hp : 0 < p.x) :
    invertPoint T (invertPoint T p) = p := by
  have hx : p.x ≠ 0 := ne_of_gt hp
  cases T
  · simp [invertPoint, TGraphLike.hasErrors]
  · cases p
    simp only [invertPoint, TGraphLike.hasErrors, if_true, one_div, inv_inv, Sample.mk.injEq,
      true_and, and_true] at hx ⊢
    field_simp

theorem any_nonpos_eq_false (l : List (Sample α)) (h : ∀ p ∈ l, 0 < p.x) :
    l.any (fun p => decide (p.x ≤ 0)) = false := by
  rw [List.any_eq_false]
  intro p hp
  simpa using h p hp

theorem InvertX_of_pos (g : Graph T α) (h : ∀ p ∈ g.pts, 0 < p.x) :
    InvertX g = ⟨{ g with pts := g.pts.map (invertPoint T), kIsSortedX := false }, none⟩ := by
  rw [InvertX_eq, any_nonpos_eq_false g.pts h, invertPrefix_of_pos g.pts h]
  simp

theorem InvertX_of_nonpos (g : Graph T α) (h : ∃ p ∈ g.pts, p.x ≤ 0) :
    InvertX g = ⟨{ g with pts := invertPrefix T g.pts }, some .range_error⟩ := by
  rw [InvertX_eq, (any_nonpos_iff g.pts).mpr h]
  simp

theorem invertPrefix_first_nonpos (l : List (Sample α)) (h : ∃ p ∈ l, p.x ≤ 0) :
    ∃ k, k < l.length
      ∧ (∃ p, l[k]? = some p ∧ p.x ≤ 0)
      ∧ (∀ i, i < k → ∀ p, l[i]? = some p → 0 < p.x)
      ∧ invertPrefix T l = (l.take k).map (invertPoint T) ++ l.drop k := by
  induction l with
  | nil => simp at h
  | cons p ps ih =>
    by_cases hp : p.x ≤ 0
    · exact ⟨0, by simp, ⟨p, by simp, hp⟩, by simp, by simp [invertPrefix, hp]⟩
    · have hps : ∃ q ∈ ps, q.x ≤ 0 := by
        obtain ⟨q, hq, hqx⟩ := h
        rcases List.mem_cons.mp hq with rfl | hq
        · exact absurd hqx hp
        · exact ⟨q, hq, hqx⟩
      obtain ⟨k, hk, ⟨q, hq, hqx⟩, hbefore, heq⟩ := ih hps
      refine ⟨k + 1, by simpa using hk, ⟨q, by simpa using hq, hqx⟩, ?_, ?_⟩
      · intro i hi r hr
        cases i with
        | zero =>
          simp only [List.getElem?_cons_zero, Option.some.injEq] at hr
          subst hr
          exact not_le.mp hp
        | succ i =>
          simp only [List.getElem?_cons_succ] at hr
          exact hbefore i (by omega) r hr
      · simp [invertPrefix, hp, heq]

theorem invertPrefix_y_ey (l : List (Sample α)) :
    (invertPrefix T l).map (fun p => (p.y, p.ey)) = l.map (fun p => (p.y, p.ey)) := by
  induction l with
  | nil => rfl
  | cons p ps ih =>
    by_cases hp : p.x ≤ 0
    · simp [invertPrefix, hp]
    · cases T <;> simp [invertPrefix, hp, ih, invertPoint, TGraphLike.hasErrors]

/-- C4: `InvertX` throws `std::range_error` exactly when some point has
`x ≤ 0`.  When every `x` is positive it returns normally with `kIsSortedX`
cleared, whatever the bit was, and for every index the new `x` is `1 / x`,
`y` and `ey` are unchanged, and the new `ex` is the old `ex` divided by the
square of the new `x` (`TGraphErrors` only; a plain graph has no `ex`). -/
theorem InvertX_range_error_iff (g : Graph T α) :
    ((InvertX g).raised = some .range_error ↔ ∃ p ∈ g.pts, p.x ≤ 0)
      ∧ ((∀ p ∈ g.pts, 0 < p.x) →
          (InvertX g).raised = none
            ∧ (InvertX g).state.kIsSortedX = false
            ∧ (InvertX g).state.pts.length = g.pts.length
            ∧ ∀ (i : Nat) (p : Sample α), g.pts[i]? = some p →
                ∃ q : Sample α, (InvertX g).state.pts[i]? = some q
                  ∧ q.x = 1 / p.x ∧ q.y = p.y ∧ q.ey = p.ey
                  ∧ q.ex = if T.hasErrors then p.ex / q.x ^ 2 else p.ex) := by
  constructor
  · constructor
    · intro hr
      by_contra hno
      have hpos : ∀ p ∈ g.pts, 0 < p.x := by
        intro p hp
        by_contra hle
        exact hno ⟨p, hp, not_lt.mp hle⟩
      rw [InvertX_of_pos g hpos] at hr
      simp at hr
    · intro h
      rw [InvertX_of_nonpos g h]
  · intro hpos
    rw [InvertX_of_pos g hpos]
    refine ⟨rfl, rfl, by simp, ?_⟩
    intro i p hp
    refine ⟨invertPoint T p, by simp [hp], ?_⟩
    cases T <;> simp [invertPoint, TGraphLike.hasErrors]

/-- C5 as amended: when some point has `x ≤ 0`, `InvertX` throws
`std::range_error`; the bit `kIsSortedX`, every `y` and every `ey` are as
before the call, and so is every point from the first one with `x ≤ 0` on,
while each point before that one has been inverted. -/
theorem InvertX_range_error_state (g : Graph T α) (h : ∃ p ∈ g.pts, p.x ≤ 0) :
    (InvertX g).raised = some .range_error
      ∧ (InvertX g).state.kIsSortedX = g.kIsSortedX
      ∧ (InvertX g).state.pts.map (fun p => (p.y, p.ey)) = g.pts.map (fun p => (p.y, p.ey))
      ∧ ∃ k, k < g.pts.length
          ∧ (∃ p, g.pts[k]? = some p ∧ p.x ≤ 0)
          ∧ (∀ i, i < k → ∀ p, g.pts[i]? = some p → 0 < p.x)
          ∧ (InvertX g).state.pts = (g.pts.take k).map (invertPoint T) ++ g.pts.drop k := by
  rw [InvertX_of_nonpos g h]
  exact ⟨rfl, rfl, invertPrefix_y_ey g.pts, invertPrefix_first_nonpos g.pts h⟩

/-- C6: when every `x` is positive, two calls of `InvertX` both return
normally, `kIsSortedX` is clear after the first and after the second, and
the points after the second call are the original points (`x`, `y`, `ex`
and `ey` alike); `y` and `ey` are untouched by the first call too. -/
theorem InvertX_InvertX (g : Graph T α) (h : ∀ p ∈ g.pts, 0 < p.x) :
    (InvertX g).raised = none
      ∧ (InvertX g).state.kIsSortedX = false
      ∧ (InvertX g).state.pts.map (fun p => (p.y, p.ey)) = g.pts.map (fun p => (p.y, p.ey))
      ∧ (InvertX (InvertX g).state).raised = none
      ∧ (InvertX (InvertX g).state).state.kIsSortedX = false
      ∧ (InvertX (InvertX g).state).state.pts = g.pts := by
  have h1 := InvertX_of_pos g h
  have hpos2 : ∀ p ∈ (InvertX g).state.pts, 0 < p.x := by
    rw [h1]
    intro p hp
    simp only [List.mem_map] at hp
    obtain ⟨q, hq, rfl⟩ := hp
    have := h q hq
    cases T <;> simpa [invertPoint, TGraphLike.hasErrors] using this
  have h2 := InvertX_of_pos (InvertX g).state hpos2
  rw [h2]
  refine ⟨by rw [h1], by rw [h1], ?_, rfl, rfl, ?_⟩
  · rw [h1]
    simp only [List.map_map]
    apply List.map_congr_left
    intro p _
    cases T <;> simp [invertPoint, TGraphLike.hasErrors]
  · rw [h1]
    simp only [List.map_map]
    conv_rhs => rw [← List.map_id g.pts]
    apply List.map_congr_left
    intro p hp
    exact invertPoint_invertPoint p (h p hp)

end Invert

/-- C5 refuted as stated: on the points `(2, 5, 1, 3), (0, 7, 2, 1)` the call
throws `std::range_error` at the second point after the first point has
already been replaced by `(1/2, 5, 4, 3)`. -/
theorem InvertX_exampleZeroX :
    (∃ p ∈ exampleZeroX.pts, p.x ≤ 0)
      ∧ (InvertX exampleZeroX).raised = some .range_error
      ∧ (InvertX exampleZeroX).state.pts = [⟨1 / 2, 5, 4, 3⟩, ⟨0, 7, 2, 1⟩]
      ∧ (InvertX exampleZeroX).state ≠ exampleZeroX := by
  have h : ∃ p ∈ exampleZeroX.pts, p.x ≤ 0 := ⟨⟨0, 7, 2, 1⟩, by simp [exampleZeroX], le_refl _⟩
  rw [InvertX_of_nonpos exampleZeroX h]
  refine ⟨h, rfl, ?_, ?_⟩
  · norm_num [exampleZeroX, invertPrefix, invertPoint, TGraphLike.hasErrors]
  · norm_num [exampleZeroX, invertPrefix, invertPoint, TGraphLike.hasErrors]

/-- Witness for C4 on the points `(2, 5, 1, 3), (4, 7, 2, 1)`. -/
theorem InvertX_range_error_iff_witness :
    (∀ p ∈ exampleErr2.pts, 0 < p.x)
      ∧ (InvertX exampleErr2).raised = none
      ∧ (InvertX exampleErr2).state.kIsSortedX = false := by
  have hpos : ∀ p ∈ exampleErr2.pts, 0 < p.x := by
    intro p hp
    simp only [exampleErr2, List.mem_cons, List.mem_singleton, List.not_mem_nil, or_false] at hp
    rcases hp with rfl | rfl <;> norm_num
  obtain ⟨hr, hs, _⟩ := (InvertX_range_error_iff exampleErr2).2 hpos
  exact ⟨hpos, hr, hs⟩

/-- Witness for C5 as amended on the points `(2, 5, 1, 3), (0, 7, 2, 1)`. -/
theorem InvertX_range_error_state_witness :
    (∃ p ∈ exampleZeroX.pts, p.x ≤ 0)
      ∧ (InvertX exampleZeroX).raised = some .range_error
      ∧ (InvertX exampleZeroX).state.kIsSortedX = exampleZeroX.kIsSortedX := by
  have h : ∃ p ∈ exampleZeroX.pts, p.x ≤ 0 := ⟨⟨0, 7, 2, 1⟩, by simp [exampleZeroX], le_refl _⟩
  obtain ⟨hr, hs, _⟩ := InvertX_range_error_state exampleZeroX h
  exact ⟨h, hr, hs⟩

/-- Witness for C6 on the points `(2, 5, 1, 3), (4, 7, 2, 1)`. -/
theorem InvertX_InvertX_witness :
    (∀ p ∈ exampleErr2.pts, 0 < p.x)
      ∧ (InvertX (InvertX exampleErr2).state).raised = none
      ∧ (InvertX (InvertX exampleErr2).state).state.pts = exampleErr2.pts := by
  have hpos : ∀ p ∈ exampleErr2.pts, 0 < p.x := by
    intro p hp
    simp only [exampleErr2, List.mem_cons, List.mem_singleton, List.not_mem_nil, or_false] at hp
    rcases hp with rfl | rfl <;> norm_num
  obtain ⟨_, _, _, hr, _, hp⟩ := InvertX_InvertX exampleErr2 hpos
  exact ⟨hpos, hr, hp⟩

/-! ## PushGraph -/

section Push

variable {α : Type} [LinearOrderedField α] {T : TGraphLike}

theorem SetPoint_eq (g : Graph T α) (base rest : List (Sample α)) (z : Sample α)
    (hg : g.pts = base ++ z :: rest) (x y : α) :
    g.SetPoint base.length x y = { g with pts := base ++ { z with x := x, y := y } :: rest } := by
  have hlt : base.length < g.pts.length := by simp [hg]
  unfold Graph.SetPoint
  simp only [hlt, if_true]
  rw [hg, modify_append_cons]

theorem SetPointError_eq (g : Graph T α) (base rest : List (Sample α)) (z : Sample α)
    (hg : g.pts = base ++ z :: rest) (ex ey : α) :
    g.SetPointError base.length ex ey
      = { g with pts := base ++ { z with ex := ex, ey := ey } :: rest } := by
  have hlt : base.length < g.pts.length := by simp [hg]
  unfold Graph.SetPointError
  simp only [hlt, if_true]
  rw [hg, modify_append_cons]

theorem pushStep_eq (s : Graph T α) (n : Nat) (sdone : List (Sample α)) (p : Sample α)
    (ps base rest : List (Sample α)) (g : Graph T α)
    (hs : s.pts = sdone ++ p :: ps) (hbase : base.length = n + sdone.length)
    (hg : g.pts = base ++ Sample.zero :: rest) :
    pushStep s n sdone.length g = ⟨{ g with pts := base ++ copyPoint T p :: rest }, none⟩ := by
  have hget : s.pts[sdone.length]? = some p := by rw [hs]; exact getElem?_append_cons _ _ _
  unfold pushStep
  simp only [hget, ← hbase]
  rw [SetPoint_eq g base rest _ hg]
  cases T
  · simp [copyPoint, TGraphLike.hasErrors, Sample.zero]
  · simp only [TGraphLike.hasErrors, if_true]
    rw [SetPointError_eq _ base rest _ rfl]
    simp [copyPoint, TGraphLike.hasErrors]

theorem forLoop_pushStep (s : Graph T α) (n : Nat) :
    ∀ (srest sdone base : List (Sample α)) (g : Graph T α),
      s.pts = sdone ++ srest → base.length = n + sdone.length →
      g.pts = base ++ List.replicate srest.length Sample.zero →
      forLoop (pushStep s n) sdone.length srest.length g
        = ⟨{ g with pts := base ++ srest.map (copyPoint T) }, none⟩ := by
  intro srest
  induction srest with
  | nil =>
    intro sdone base g _ _ hg
    cases g
    simp only [List.length_nil, List.replicate, List.append_nil] at hg
    subst hg
    simp [forLoop]
  | cons p ps ih =>
    intro sdone base g hs hbase hg
    have hstep := pushStep_eq s n sdone p ps base (List.replicate ps.length Sample.zero) g
      hs hbase (by simpa [List.replicate_succ] using hg)
    rw [List.length_cons, forLoop_succ_ok _ _ _ _ _ hstep]
    have hih := ih (sdone ++ [p]) (base ++ [copyPoint T p])
      { g with pts := base ++ copyPoint T p :: List.replicate ps.length Sample.zero }
      (by simp [hs]) (by simp [hbase]; omega) (by simp)
    simp only [List.length_append, List.length_singleton] at hih
    rw [hih]
    simp

/-- What `PushGraph` does when neither graph is empty. -/
theorem PushGraph_eq (s t : Graph T α) (hs : s.pts ≠ []) (ht : t.pts ≠ []) :
    PushGraph ⟨s, t⟩
      = ⟨⟨s, { t with pts := t.pts ++ s.pts.map (copyPoint T),
                      kIsSortedX := t.kIsSortedX && s.kIsSortedX
                        && decide ((t.pts.getLast ht).x < (s.pts.head hs).x) }⟩, none⟩ := by
  have hloop := forLoop_pushStep s t.pts.length s.pts [] t.pts
    (t.Set (t.pts.length + s.pts.length)) (by simp) (by simp) (by simp [Graph.Set])
  simp only [List.length_nil] at hloop
  unfold PushGraph
  simp only [Graph.GetN, hloop]
  by_cases hflags : (t.kIsSortedX && s.kIsSortedX) = true
  · simp only [Graph.Set, hflags, if_true, readAt_pred_append t.pts _ ht, readAt_zero s.pts hs]
    simp
  · have hf : (t.kIsSortedX && s.kIsSortedX) = false := by simpa using hflags
    simp [Graph.Set, hf]

/-- C7: for a non-empty source `s` and a non-empty target `t` of the same
type, `PushGraph` returns normally, leaves `s` as it was and leaves `t` with
`len(t) + len(s)` points: the points of `t` before the call followed by the
points of `s` in order (with `ex` and `ey` for a `TGraphErrors`); the bit
`kIsSortedX` of `t` becomes `t.before AND s AND last_x(t before) < first_x(s)`,
so it is set when both bits are set and the join is strictly increasing. -/
theorem PushGraph_appends (s t : Graph T α) (hs : s.pts ≠ []) (ht : t.pts ≠ []) :
    (PushGraph ⟨s, t⟩).raised = none
      ∧ (PushGraph ⟨s, t⟩).state.g_pushed = s
      ∧ (PushGraph ⟨s, t⟩).state.g.pts.length = t.pts.length + s.pts.length
      ∧ (PushGraph ⟨s, t⟩).state.g.pts.take t.pts.length = t.pts
      ∧ ((PushGraph ⟨s, t⟩).state.g.pts.drop t.pts.length).map (fun p => (p.x, p.y))
          = s.pts.map (fun p => (p.x, p.y))
      ∧ (T.hasErrors = true → (PushGraph ⟨s, t⟩).state.g.pts = t.pts ++ s.pts)
      ∧ (PushGraph ⟨s, t⟩).state.g.kIsSortedX
          = (t.kIsSortedX && s.kIsSortedX
              && decide ((t.pts.getLast ht).x < (s.pts.head hs).x))
      ∧ (t.kIsSortedX = true → s.kIsSortedX = true →
          (t.pts.getLast ht).x < (s.pts.head hs).x →
          (PushGraph ⟨s, t⟩).state.g.kIsSortedX = true) := by
  rw [PushGraph_eq s t hs ht]
  refine ⟨rfl, rfl, by simp, by simp, ?_, ?_, rfl, ?_⟩
  · simp only [List.drop_left, List.map_map]
    apply List.map_congr_left
    intro p _
    cases T <;> simp [copyPoint, TGraphLike.hasErrors]
  · intro hT
    have hc : copyPoint T = (id : Sample α → Sample α) := by
      funext p
      simp [copyPoint, hT]
    simp [hc]
  · intro h1 h2 h3
    simp [h1, h2, h3]

end Push

/-- Witness for C7: the three points of `exampleErr3` (first `x` 5, bit set)
pushed onto the two points of `exampleErr2` (last `x` 4, bit set). -/
theorem PushGraph_appends_witness :
    exampleErr3.pts ≠ [] ∧ exampleErr2.pts ≠ []
      ∧ (PushGraph ⟨exampleErr3, exampleErr2⟩).raised = none
      ∧ (PushGraph ⟨exampleErr3, exampleErr2⟩).state.g.pts = exampleErr2.pts ++ exampleErr3.pts
      ∧ (PushGraph ⟨exampleErr3, exampleErr2⟩).state.g.kIsSortedX = true := by
  have hs : exampleErr3.pts ≠ [] := by simp [exampleErr3]
  have ht : exampleErr2.pts ≠ [] := by simp [exampleErr2]
  obtain ⟨hr, _, _, _, _, hpts, _, hflag⟩ := PushGraph_appends exampleErr3 exampleErr2 hs ht
  exact ⟨hs, ht, hr, hpts rfl, hflag rfl rfl (by norm_num [exampleErr3, exampleErr2])⟩

/-! ## SortX -/

section Sorting

variable {α : Type} [LinearOrderedField α] {T : TGraphLike}

theorem filter_orderedInsert (v : α) (a : Sample α) (l : List (Sample α)) :
    (l.orderedInsert (fun p q => p.x ≤ q.x) a).filter (fun p => decide (p.x = v))
      = (a :: l).filter (fun p => decide (p.x = v)) := by
  induction l with
  | nil => simp
  | cons b l ih =>
    by_cases hab : a.x ≤ b.x
    · simp [List.orderedInsert, hab]
    · have hne : a.x ≠ b.x := fun h => hab (le_of_eq h)
      simp only [List.orderedInsert, hab, if_false]
      rw [List.filter_cons, ih]
      by_cases ha : a.x = v
      · have hb : ¬ b.x = v := fun hb => hne (ha.trans hb.symm)
        simp [List.filter_cons, ha, hb]
      · by_cases hb : b.x = v
        · simp [List.filter_cons, ha, hb]
        · simp [List.filter_cons, ha, hb]

theorem filter_insertionSort (v : α) (l : List (Sample α)) :
    (l.insertionSort (fun p q => p.x ≤ q.x)).filter (fun p => decide (p.x = v))
      = l.filter (fun p => decide (p.x = v)) := by
  induction l with
  | nil => rfl
  | cons a l ih =>
    rw [List.insertionSort, filter_orderedInsert, List.filter_cons, List.filter_cons, ih]

theorem sorted_insertionSort_x (l : List (Sample α)) :
    ((l.insertionSort (fun p q => p.x ≤ q.x)).map (fun p => p.x)).Pairwise (fun a b => a ≤ b) := by
  haveI : IsTotal (Sample α) (fun p q => p.x ≤ q.x) := ⟨fun a b => le_total a.x b.x⟩
  haveI : IsTrans (Sample α) (fun p q => p.x ≤ q.x) := ⟨fun _ _ _ h1 h2 => le_trans h1 h2⟩
  have h := List.sorted_insertionSort (fun p q : Sample α => p.x ≤ q.x) l
  rw [List.pairwise_map]
  exact h

theorem SortX_of_clear (g : Graph T α) (h : g.kIsSortedX = false) : SortX g = g.Sort := by
  simp [SortX, h]

theorem SortX_of_set (g : Graph T α) (h : g.kIsSortedX = true) : SortX g = g := by
  simp [SortX, h]

/-- C8: `SortX` is idempotent.  When `kIsSortedX` is clear at entry, the
result has the bit set and a non-decreasing `x` sequence, and is a stable
rearrangement of the input: a permutation of the points (each `y`, `ex`, `ey`
stays with its `x`) in which the points of any given `x` keep their input
order.  When the bit is already set, `SortX` changes nothing. -/
theorem SortX_idempotent_stable (g : Graph T α) :
    SortX (SortX g) = SortX g
      ∧ (g.kIsSortedX = false →
          (SortX g).kIsSortedX = true
            ∧ ((SortX g).pts.map (fun p => p.x)).Pairwise (fun a b => a ≤ b)
            ∧ (SortX g).pts.Perm g.pts
            ∧ ∀ v : α, (SortX g).pts.filter (fun p => decide (p.x = v))
                = g.pts.filter (fun p => decide (p.x = v)))
      ∧ (g.kIsSortedX = true → SortX g = g) := by
  refine ⟨?_, ?_, SortX_of_set g⟩
  · cases h : g.kIsSortedX
    · rw [SortX_of_clear g h]
      exact SortX_of_set _ rfl
    · rw [SortX_of_set g h, SortX_of_set g h]
  · intro h
    rw [SortX_of_clear g h]
    exact ⟨rfl, sorted_insertionSort_x g.pts, List.perm_insertionSort _ _,
      fun v => filter_insertionSort v g.pts⟩

end Sorting

/-- Witness for C8 on the unflagged five-point series `exampleErr5`. -/
theorem SortX_idempotent_stable_witness :
    exampleErr5.kIsSortedX = false
      ∧ SortX (SortX exampleErr5) = SortX exampleErr5
      ∧ (SortX exampleErr5).kIsSortedX = true
      ∧ (SortX exampleErr5).pts.Perm exampleErr5.pts := by
  obtain ⟨hidem, hclear, _⟩ := SortX_idempotent_stable exampleErr5
  obtain ⟨hbit, _, hperm, _⟩ := hclear rfl
  exact ⟨rfl, hidem, hbit, hperm⟩

/-! ## FFT in polar form -/

section Polar

variable {α : Type} [LinearOrderedField α]

theorem filled_length (n : Nat) (out : List α) : (filled n out).length = n := by
  simp [filled]

theorem filled_of_length (out : List α) : filled out.length out = out := by
  apply List.ext_getElem?
  intro i
  by_cases hi : i < out.length
  · simp [filled, List.getElem?_range hi, List.getD_eq_getElem?_getD, List.getElem?_eq_getElem hi]
  · have hle : out.length ≤ i := not_lt.mp hi
    rw [List.getElem?_eq_none hle, List.getElem?_eq_none (by simpa [filled] using hle)]

theorem forLoop_polarStep (sqrt : α → α) (atan2 : α → α → α) :
    ∀ (rr ri dr di : List α), dr.length = di.length → rr.length = ri.length →
      forLoop (polarStep sqrt atan2) dr.length rr.length (dr ++ rr, di ++ ri)
        = ⟨(dr ++ rr.map (fun re => sqrt (re ^ 2 + re ^ 2)),
            di ++ rr.map (fun re => atan2 re re)), none⟩ := by
  intro rr
  induction rr with
  | nil =>
    intro ri dr di _ hlen
    have : ri = [] := List.length_eq_zero.mp hlen.symm
    simp [forLoop, this]
  | cons p ps ih =>
    intro ri dr di hd hlen
    cases ri with
    | nil => simp at hlen
    | cons q qs =>
      have hstep : polarStep sqrt atan2 dr.length (dr ++ p :: ps, di ++ q :: qs)
          = ⟨((dr ++ [sqrt (p ^ 2 + p ^ 2)]) ++ ps, (di ++ [atan2 p p]) ++ qs), none⟩ := by
        simp only [polarStep, getElem?_append_cons]
        rw [set_append_cons, hd, set_append_cons]
        simp
      rw [List.length_cons, forLoop_succ_ok _ _ _ _ _ hstep]
      have hih := ih qs (dr ++ [sqrt (p ^ 2 + p ^ 2)]) (di ++ [atan2 p p]) (by simp [hd])
        (by simpa using hlen)
      simp only [List.length_append, List.length_singleton] at hih
      rw [hih]
      simp

/-- With `abs_arg` set, both returned vectors are computed from the real
components alone: the imaginary components of the transform are not read. -/
theorem FFT_polar_eq (r2c : List α → List α × List α) (sqrt : α → α) (atan2 : α → α → α)
    (y : List α) :
    FFT r2c sqrt atan2 y true
      = ((FFT r2c sqrt atan2 y false).1.map (fun re => sqrt (re ^ 2 + re ^ 2)),
         (FFT r2c sqrt atan2 y false).1.map (fun re => atan2 re re)) := by
  have h := forLoop_polarStep sqrt atan2 (filled y.length (r2c y).1)
    (filled y.length (r2c y).2) [] [] rfl (by simp [filled_length])
  simp only [List.length_nil, List.nil_append, filled_length] at h
  simp [FFT, h]

end Polar

/-- C9, evaluated on `x = [1, 0, -1, 0]` over the reals: the raw transform is
`re = [0, 2, 0, 2]`, `im = [0, 0, 0, 0]`; at index 1 the polar call returns
the magnitude `sqrt (2² + 2²)` and the phase `atan2 (2, 2)`, not
`sqrt (2² + 0²)` and `atan2 (0, 2)`, and both values differ from those. -/
theorem FFT_polar_example :
    FFT (dftR2C cos4 sin4) Real.sqrt (fun im re => Complex.arg ⟨re, im⟩) [1, 0, -1, 0] false
        = ([0, 2, 0, 2], [0, 0, 0, 0])
      ∧ (FFT (dftR2C cos4 sin4) Real.sqrt (fun im re => Complex.arg ⟨re, im⟩)
            [1, 0, -1, 0] true).1[1]? = some (Real.sqrt (2 ^ 2 + 2 ^ 2))
      ∧ (FFT (dftR2C cos4 sin4) Real.sqrt (fun im re => Complex.arg ⟨re, im⟩)
            [1, 0, -1, 0] true).2[1]? = some (Complex.arg ⟨2, 2⟩)
      ∧ Real.sqrt (2 ^ 2 + 2 ^ 2) ≠ Real.sqrt (2 ^ 2 + 0 ^ 2)
      ∧ Complex.arg ⟨2, 2⟩ ≠ Complex.arg ⟨2, 0⟩ := by
  have hraw : FFT (dftR2C cos4 sin4) Real.sqrt (fun im re => Complex.arg ⟨re, im⟩)
      [1, 0, -1, 0] false = ([0, 2, 0, 2], [0, 0, 0, 0]) := by
    simp [FFT, dftR2C, filled, Finset.sum_range_succ, cos4, sin4, List.range, List.range.loop]
    norm_num
  refine ⟨hraw, ?_, ?_, ?_, ?_⟩
  · rw [FFT_polar_eq, hraw]
    simp
  · rw [FFT_polar_eq, hraw]
    simp
  · intro h
    have h8 : (0 : ℝ) ≤ 2 ^ 2 + 2 ^ 2 := by norm_num
    have h4 : (0 : ℝ) ≤ 2 ^ 2 + 0 ^ 2 := by norm_num
    have := congrArg (fun v => v ^ 2) h
    simp only [Real.sq_sqrt h8, Real.sq_sqrt h4] at this
    norm_num at this
  · intro h
    have h0 : Complex.arg ⟨2, 0⟩ = 0 := by
      rw [Complex.arg_eq_zero_iff]
      norm_num
    rw [h0, Complex.arg_eq_zero_iff] at h
    norm_num at h

/-! ## The round trip FFT, IFFT -/

section RoundTrip

variable {α : Type} [LinearOrderedField α]

theorem twiddle_mul_period {n : Nat} {c s : Nat → α} (htw : IsTwiddle n c s) (d : Nat) :
    c (d * n) = 1 ∧ s (d * n) = 0 := by
  induction d with
  | zero => simpa using htw.zero
  | succ d ih =>
    have h := htw.add (d * n) n
    rw [Nat.succ_mul, h.1, h.2, ih.1, ih.2, htw.period.1, htw.period.2]
    simp

theorem twiddle_sum_cos {n : Nat} {c s : Nat → α} (htw : IsTwiddle n c s) (d : Nat)
    (hd0 : 0 < d) (hdn : d < n) : ∑ k in Finset.range n, c (d * k) = 0 := by
  have hshiftP : ∑ k in Finset.range n, c (d * (k + 1)) = ∑ k in Finset.range n, c (d * k) := by
    have h1 := Finset.sum_range_succ' (fun k => c (d * k)) n
    have h2 := Finset.sum_range_succ (fun k => c (d * k)) n
    simp only [Nat.mul_zero, htw.zero.1, (twiddle_mul_period htw d).1] at h1 h2
    linarith
  have hshiftQ : ∑ k in Finset.range n, s (d * (k + 1)) = ∑ k in Finset.range n, s (d * k) := by
    have h1 := Finset.sum_range_succ' (fun k => s (d * k)) n
    have h2 := Finset.sum_range_succ (fun k => s (d * k)) n
    simp only [Nat.mul_zero, htw.zero.2, (twiddle_mul_period htw d).2] at h1 h2
    linarith
  have hP : ∑ k in Finset.range n, c (d * (k + 1))
      = c d * ∑ k in Finset.range n, c (d * k) - s d * ∑ k in Finset.range n, s (d * k) := by
    rw [Finset.mul_sum, Finset.mul_sum, ← Finset.sum_sub_distrib]
    apply Finset.sum_congr rfl
    intro k _
    rw [Nat.mul_succ, (htw.add (d * k) d).1]
    ring
  have hQ : ∑ k in Finset.range n, s (d * (k + 1))
      = c d * ∑ k in Finset.range n, s (d * k) + s d * ∑ k in Finset.range n, c (d * k) := by
    rw [Finset.mul_sum, Finset.mul_sum, ← Finset.sum_add_distrib]
    apply Finset.sum_congr rfl
    intro k _
    rw [Nat.mul_succ, (htw.add (d * k) d).2]
    ring
  rw [hshiftP] at hP
  rw [hshiftQ] at hQ
  have hmul : ((c d - 1) ^ 2 + s d ^ 2) * ∑ k in Finset.range n, c (d * k) = 0 := by
    linear_combination (-(c d - 1)) * hP - s d * hQ
  have hne : (c d - 1) ^ 2 + s d ^ 2 ≠ 0 := by
    intro h0
    apply htw.primitive d hd0 hdn
    have ha : (c d - 1) ^ 2 = 0 := by nlinarith [sq_nonneg (c d - 1), sq_nonneg (s d)]
    have hb : s d ^ 2 = 0 := by nlinarith [sq_nonneg (c d - 1), sq_nonneg (s d)]
    exact ⟨by linarith [pow_eq_zero_iff (two_ne_zero) |>.mp ha], pow_eq_zero_iff (two_ne_zero) |>.mp hb⟩
  exact (mul_eq_zero.mp hmul).resolve_left hne

theorem twiddle_shift {n : Nat} {c s : Nat → α} (htw : IsTwiddle n c s) (i d k : Nat) :
    c (i * k) * c ((i + d) * k) + s (i * k) * s ((i + d) * k) = c (d * k) := by
  rw [Nat.add_mul, (htw.add (i * k) (d * k)).1, (htw.add (i * k) (d * k)).2]
  linear_combination (c (d * k)) * htw.unit (i * k)

theorem twiddle_orthogonal {n : Nat} {c s : Nat → α} (htw : IsTwiddle n c s) (i j : Nat)
    (hi : i < n) (hj : j < n) :
    ∑ k in Finset.range n, (c (i * k) * c (j * k) + s (i * k) * s (j * k))
      = if i = j then (n : α) else 0 := by
  rcases Nat.lt_trichotomy i j with hlt | heq | hgt
  · obtain ⟨d, rfl⟩ : ∃ d, j = i + d := ⟨j - i, by omega⟩
    rw [if_neg (by omega), ← twiddle_sum_cos htw d (by omega) (by omega)]
    exact Finset.sum_congr rfl (fun k _ => twiddle_shift htw i d k)
  · subst heq
    rw [if_pos rfl]
    have : ∀ k ∈ Finset.range n, c (i * k) * c (i * k) + s (i * k) * s (i * k) = 1 := by
      intro k _
      linear_combination htw.unit (i * k)
    rw [Finset.sum_congr rfl this]
    simp
  · obtain ⟨d, rfl⟩ : ∃ d, i = j + d := ⟨i - j, by omega⟩
    rw [if_neg (by omega), ← twiddle_sum_cos htw d (by omega) (by omega)]
    apply Finset.sum_congr rfl
    intro k _
    rw [← twiddle_shift htw j d k]
    ring

theorem getD_map_range (f : Nat → α) (n k : Nat) (hk : k < n) :
    ((List.range n).map f).getD k 0 = f k := by
  simp [List.getD_eq_getElem?_getD, List.getElem?_range hk]

theorem dft_roundtrip_sum {c s : Nat → α} (x : List α) (htw : IsTwiddle x.length c s)
    (j : Nat) (hj : j < x.length) :
    ∑ k in Finset.range x.length,
        ((dftR2C c s x).1.getD k 0 * c (j * k) - (dftR2C c s x).2.getD k 0 * s (j * k))
      = (x.length : α) * x.getD j 0 := by
  have hterm : ∀ k ∈ Finset.range x.length,
      (dftR2C c s x).1.getD k 0 * c (j * k) - (dftR2C c s x).2.getD k 0 * s (j * k)
        = ∑ i in Finset.range x.length,
            x.getD i 0 * (c (i * k) * c (j * k) + s (i * k) * s (j * k)) := by
    intro k hk
    rw [Finset.mem_range] at hk
    simp only [dftR2C]
    rw [getD_map_range _ _ _ hk, getD_map_range _ _ _ hk, neg_mul, sub_neg_eq_add,
      Finset.sum_mul, Finset.sum_mul, ← Finset.sum_add_distrib]
    apply Finset.sum_congr rfl
    intro i _
    ring
  rw [Finset.sum_congr rfl hterm, Finset.sum_comm]
  have hinner : ∀ i ∈ Finset.range x.length,
      ∑ k in Finset.range x.length,
          x.getD i 0 * (c (i * k) * c (j * k) + s (i * k) * s (j * k))
        = if i = j then x.getD i 0 * (x.length : α) else 0 := by
    intro i hi
    rw [Finset.mem_range] at hi
    rw [← Finset.mul_sum, twiddle_orthogonal htw i j hi hj]
    split <;> simp
  rw [Finset.sum_congr rfl hinner, Finset.sum_ite_eq' , if_pos (Finset.mem_range.mpr hj)]
  ring

theorem filled_eq_self (n : Nat) (out : List α) (h : out.length = n) : filled n out = out := by
  subst h
  exact filled_of_length out

/-- The round trip for any tables that satisfy `IsTwiddle`. -/
theorem IFFT_FFT_of_twiddle (c s : Nat → α) (sqrt : α → α) (atan2 : α → α → α) (x : List α)
    (hn : 1 ≤ x.length) (htw : IsTwiddle x.length c s) :
    IFFT (dftC2R c s) (FFT (dftR2C c s) sqrt atan2 x false) false = .ok x := by
  have hlen1 : (dftR2C c s x).1.length = x.length := by simp [dftR2C]
  have hlen2 : (dftR2C c s x).2.length = x.length := by simp [dftR2C]
  have hfft : FFT (dftR2C c s) sqrt atan2 x false = dftR2C c s x := by
    simp [FFT, filled_eq_self _ _ hlen1, filled_eq_self _ _ hlen2]
  have hn0 : (x.length : α) ≠ 0 := by
    have : 0 < x.length := hn
    exact_mod_cast this.ne'
  rw [hfft]
  simp only [IFFT, hlen1]
  have hc2r : (dftC2R c s x.length (dftR2C c s x).1 (dftR2C c s x).2).length = x.length := by
    simp [dftC2R]
  rw [filled_eq_self _ _ hc2r]
  simp only [Bool.false_eq_true, if_false]
  congr 1
  apply List.ext_getElem?
  intro j
  by_cases hj : j < x.length
  · have hsum := dft_roundtrip_sum x htw j hj
    have hxj : x.getD j 0 = x[j] := by
      simp [List.getD_eq_getElem?_getD, List.getElem?_eq_getElem hj]
    rw [List.getElem?_eq_getElem hj]
    simp only [dftC2R, List.getElem?_map, List.getElem?_range hj, Option.map_some', hsum, hxj]
    rw [mul_div_cancel_left₀ _ hn0]
  · have hle : x.length ≤ j := not_lt.mp hj
    rw [List.getElem?_eq_none hle, List.getElem?_eq_none (by simpa [dftC2R] using hle)]

theorem isTwiddle_four : IsTwiddle 4 (cos4 : Nat → α) sin4 := by
  have hmod : ∀ a b : Nat, (a + b) % 4 = (a % 4 + b % 4) % 4 := fun a b => Nat.add_mod a b 4
  refine ⟨by simp [cos4, sin4], ?_, ?_, by simp [cos4, sin4], ?_⟩
  · intro a b
    have ha : a % 4 < 4 := Nat.mod_lt _ (by decide)
    have hb : b % 4 < 4 := Nat.mod_lt _ (by decide)
    simp only [cos4, sin4, hmod a b]
    generalize a % 4 = r at ha
    generalize b % 4 = t at hb
    interval_cases r <;> interval_cases t <;> simp
  · intro a
    have ha : a % 4 < 4 := Nat.mod_lt _ (by decide)
    simp only [cos4, sin4]
    generalize a % 4 = r at ha
    interval_cases r <;> simp
  · intro d hd0 hd4
    have hneg : ¬ ((-1 : α) = 1) := by
      intro h
      have h0 : (0 : α) < 1 := one_pos
      linarith
    interval_cases d <;> simp [cos4, sin4, hneg]

end RoundTrip

theorem isTwiddle_real (n : Nat) (hn : 1 ≤ n) :
    IsTwiddle n (fun m => Real.cos (2 * Real.pi * m / n)) (fun m => Real.sin (2 * Real.pi * m / n)) := by
  have hn0 : (n : ℝ) ≠ 0 := by
    have : 0 < n := hn
    exact_mod_cast this.ne'
  have hnpos : (0 : ℝ) < n := by
    have : 0 < n := hn
    exact_mod_cast this
  refine ⟨by simp, ?_, ?_, ?_, ?_⟩
  · intro a b
    have hsplit : 2 * Real.pi * ((a + b : Nat) : ℝ) / n
        = 2 * Real.pi * a / n + 2 * Real.pi * b / n := by
      push_cast
      ring
    simp only [hsplit, Real.cos_add, Real.sin_add, and_self]
  · intro a
    exact Real.cos_sq_add_sin_sq _
  · have h2pi : 2 * Real.pi * (n : ℝ) / n = 2 * Real.pi := by field_simp
    simp only [h2pi, Real.cos_two_pi, Real.sin_two_pi, and_self]
  · intro d hd0 hdn h
    have hdpos : (0 : ℝ) < d := by exact_mod_cast hd0
    have hdlt : (d : ℝ) < n := by exact_mod_cast hdn
    have hθpos : 0 < 2 * Real.pi * d / n := by positivity
    have hθlt : 2 * Real.pi * d / n < 2 * Real.pi := by
      rw [div_lt_iff₀ hnpos]
      have := Real.pi_pos
      nlinarith
    have hzero := (Real.cos_eq_one_iff_of_lt_of_lt (by linarith [Real.pi_pos]) hθlt).mp h.1
    linarith

/-- C10: for every real sequence `x` of length `n ≥ 1`, `IFFT` applied to
`FFT (x, false)`, where the forward plan is the unnormalised real-to-complex
transform, the backward plan the unnormalised complex-to-real inverse, and
`IFFT` divides every output by `n`, returns normally with a sequence equal to
`x` element by element (hence of length `n`). -/
theorem IFFT_FFT_roundtrip (sqrt : ℝ → ℝ) (atan2 : ℝ → ℝ → ℝ) (x : List ℝ)
    (hn : 1 ≤ x.length) :
    IFFT (dftC2R (fun m => Real.cos (2 * Real.pi * m / x.length))
                 (fun m => Real.sin (2 * Real.pi * m / x.length)))
        (FFT (dftR2C (fun m => Real.cos (2 * Real.pi * m / x.length))
                     (fun m => Real.sin (2 * Real.pi * m / x.length)))
          sqrt atan2 x false) false
      = .ok x :=
  IFFT_FFT_of_twiddle _ _ sqrt atan2 x hn (isTwiddle_real x.length hn)

/-- Witness for C10 on `x = [1, 2, 3, 4]` over the reals. -/
theorem IFFT_FFT_roundtrip_witness :
    1 ≤ ([1, 2, 3, 4] : List ℝ).length
      ∧ IFFT (dftC2R (fun m => Real.cos (2 * Real.pi * m / ([1, 2, 3, 4] : List ℝ).length))
                     (fun m => Real.sin (2 * Real.pi * m / ([1, 2, 3, 4] : List ℝ).length)))
          (FFT (dftR2C (fun m => Real.cos (2 * Real.pi * m / ([1, 2, 3, 4] : List ℝ).length))
                       (fun m => Real.sin (2 * Real.pi * m / ([1, 2, 3, 4] : List ℝ).length)))
            Real.sqrt (fun im re => Complex.arg ⟨re, im⟩) [1, 2, 3, 4] false) false
        = .ok [1, 2, 3, 4] :=
  ⟨by simp, IFFT_FFT_roundtrip Real.sqrt (fun im re => Complex.arg ⟨re, im⟩) [1, 2, 3, 4]
    (by simp)⟩

/-- The round trip on `x = [1, 2, 3, 4]` over the rationals, with the exact
tables of size 4: the transform is `re = [10, -2, -2, -2]`, `im = [0, 2, 0, -2]`
and the inverse returns `[1, 2, 3, 4]` exactly. -/
theorem IFFT_FFT_example :
    FFT (dftR2C cos4 sin4) (fun v => v) (fun im _ => im) ([1, 2, 3, 4] : List ℚ) false
        = ([10, -2, -2, -2], [0, 2, 0, -2])
      ∧ IFFT (dftC2R cos4 sin4)
          (FFT (dftR2C cos4 sin4) (fun v => v) (fun im _ => im) ([1, 2, 3, 4] : List ℚ) false)
          false = .ok [1, 2, 3, 4] := by
  constructor
  · simp [FFT, dftR2C, filled, Finset.sum_range_succ, cos4, sin4, List.range, List.range.loop]
    norm_num
  · exact IFFT_FFT_of_twiddle cos4 sin4 _ _ [1, 2, 3, 4] (by simp) isTwiddle_four

/-! ## TreeHelper: construction from branch names -/

section Declare

theorem not_validSpec_iff (b : List Char) :
    ¬ ValidSpec b ↔
      b.length < 3 ∨ (b.getLast? ≠ some 'B' ∧ b.getLast? ≠ some 'I' ∧ b.getLast? ≠ some 'D') := by
  unfold ValidSpec
  constructor
  · intro h
    by_cases hlen : 3 ≤ b.length
    · right
      refine ⟨fun hB => h ⟨hlen, Or.inl hB⟩, fun hI => h ⟨hlen, Or.inr (Or.inl hI)⟩,
        fun hD => h ⟨hlen, Or.inr (Or.inr hD)⟩⟩
    · left
      omega
  · rintro (hlen | ⟨hB, hI, hD⟩) ⟨h3, hlast⟩
    · omega
    · rcases hlast with h | h | h
      · exact hB h
      · exact hI h
      · exact hD h

theorem declareStep_of_valid (st : TreeHelper) (b : List Char) (h : ValidSpec b) :
    ∃ t, specType b = some t ∧ declareStep st b = .ok (st.addBranch b t) := by
  obtain ⟨hlen, hlast⟩ := h
  have hlen2 : ¬ b.length ≤ 2 := by omega
  rcases hlast with h | h | h
  · exact ⟨.Bool_t, by simp [specType, h, codeType], by simp [declareStep, hlen2, h]⟩
  · exact ⟨.Int_t, by simp [specType, h, codeType], by simp [declareStep, hlen2, h]⟩
  · exact ⟨.Double_t, by simp [specType, h, codeType], by simp [declareStep, hlen2, h]⟩

theorem declareStep_of_not_valid (st : TreeHelper) (b : List Char) (h : ¬ ValidSpec b) :
    declareStep st b = .error .runtime_error := by
  rcases (not_validSpec_iff b).mp h with hlen | ⟨hB, hI, hD⟩
  · have : b.length ≤ 2 := by omega
    simp [declareStep, this]
  · by_cases hlen : b.length ≤ 2
    · simp [declareStep, hlen]
    · cases hl : b.getLast? with
      | none =>
        rw [List.getLast?_eq_none_iff] at hl
        subst hl
        simp at hlen
      | some c =>
        rw [hl] at hB hI hD
        have hB1 : ¬ c = 'B' := fun h => hB (by rw [h])
        have hI1 : ¬ c = 'I' := fun h => hI (by rw [h])
        have hD1 : ¬ c = 'D' := fun h => hD (by rw [h])
        simp [declareStep, hlen, hl, hB1, hI1, hD1]

theorem declareLoop_error (specs : List (List Char)) :
    ∀ st : TreeHelper, (∃ b ∈ specs, ¬ ValidSpec b) →
      declareLoop specs st = .error .runtime_error := by
  induction specs with
  | nil => intro st h; simp at h
  | cons b rest ih =>
    intro st h
    by_cases hb : ValidSpec b
    · obtain ⟨t, _, hstep⟩ := declareStep_of_valid st b hb
      have hrest : ∃ c ∈ rest, ¬ ValidSpec c := by
        obtain ⟨c, hc, hcv⟩ := h
        rcases List.mem_cons.mp hc with rfl | hc
        · exact absurd hb hcv
        · exact ⟨c, hc, hcv⟩
      simp only [declareLoop, hstep]
      exact ih _ hrest
    · simp [declareLoop, declareStep_of_not_valid st b hb]

theorem mapFind_mapAssign (m : List (List Char × LeafType)) (key : List Char) (val : LeafType)
    (k : List Char) :
    mapFind (mapAssign m key val) k = if key = k then some val else mapFind m k := by
  induction m with
  | nil => simp [mapAssign, mapFind]
  | cons e m ih =>
    obtain ⟨k1, v1⟩ := e
    by_cases h1 : k1 = key
    · subst h1
      by_cases h2 : k1 = k <;> simp [mapAssign, mapFind, h2]
    · by_cases h2 : k1 = k
      · subst h2
        have h3 : ¬ key = k1 := fun h => h1 h.symm
        simp [mapAssign, mapFind, h1, h3]
      · simp [mapAssign, mapFind, h1, h2, ih]

theorem keys_mapAssign (m : List (List Char × LeafType)) (key : List Char) (val : LeafType) :
    (mapAssign m key val).map Prod.fst
      = if key ∈ m.map Prod.fst then m.map Prod.fst else m.map Prod.fst ++ [key] := by
  induction m with
  | nil => simp [mapAssign]
  | cons e m ih =>
    obtain ⟨k1, v1⟩ := e
    by_cases h1 : k1 = key
    · subst h1
      simp only [mapAssign, if_true, List.map_cons, List.mem_cons, true_or]
    · have h2 : ¬ key = k1 := fun h => h1 h.symm
      simp only [mapAssign, h1, if_false, List.map_cons, ih, List.mem_cons, h2, false_or]
      by_cases hk : key ∈ List.map Prod.fst m
      · simp only [hk, if_true]
      · simp only [hk, if_false, List.cons_append]

theorem keys_nodup_mapAssign (m : List (List Char × LeafType)) (key : List Char)
    (val : LeafType) (h : (m.map Prod.fst).Nodup) :
    ((mapAssign m key val).map Prod.fst).Nodup := by
  rw [keys_mapAssign]
  split
  · exact h
  · rename_i hk
    refine List.Nodup.append h (List.nodup_singleton key) ?_
    intro a ha hb
    rw [List.mem_singleton] at hb
    subst hb
    exact hk ha

theorem mem_keys_mapAssign (m : List (List Char × LeafType)) (key : List Char)
    (val : LeafType) (k : List Char) :
    k ∈ (mapAssign m key val).map Prod.fst ↔ k = key ∨ k ∈ m.map Prod.fst := by
  rw [keys_mapAssign]
  split
  · rename_i hk
    constructor
    · exact Or.inr
    · rintro (rfl | h)
      · exact hk
      · exact h
  · simp only [List.mem_append, List.mem_singleton]
    tauto

theorem declareLoop_ok (specs : List (List Char)) :
    ∀ st : TreeHelper, (∀ b ∈ specs, ValidSpec b) →
      ∃ st1, declareLoop specs st = .ok st1
        ∧ st1.tree_.map (fun br : Branch => (br.name, some br.type, br.slot, br.leaflist))
            = st.tree_.map (fun br : Branch => (br.name, some br.type, br.slot, br.leaflist))
                ++ specs.map (fun b => (specName b, specType b, b, b))
        ∧ (∀ k, mapFind st1.vals_ k = if k ∈ specs then specType k else mapFind st.vals_ k)
        ∧ ((st.vals_.map Prod.fst).Nodup → (st1.vals_.map Prod.fst).Nodup)
        ∧ (∀ k, k ∈ st1.vals_.map Prod.fst ↔ k ∈ st.vals_.map Prod.fst ∨ k ∈ specs) := by
  induction specs with
  | nil =>
    intro st _
    refine ⟨st, rfl, by simp, by simp, id, ?_⟩
    intro k
    constructor
    · exact Or.inl
    · rintro (hk | hk)
      · exact hk
      · cases hk
  | cons b rest ih =>
    intro st h
    obtain ⟨t, ht, hstep⟩ := declareStep_of_valid st b (h b (List.mem_cons_self b rest))
    obtain ⟨st1, hloop, htree, hfind, hnodup, hmem⟩ :=
      ih (st.addBranch b t) (fun c hc => h c (List.mem_cons_of_mem b hc))
    refine ⟨st1, by simp only [declareLoop, hstep, hloop], ?_, ?_, ?_, ?_⟩
    · rw [htree]
      simp [TreeHelper.addBranch, specName, ht]
    · intro k
      rw [hfind k]
      by_cases hk : k ∈ rest
      · simp [hk]
      · by_cases hb : b = k
        · subst hb
          simp [hk, TreeHelper.addBranch, mapFind_mapAssign, ht]
        · have hb2 : ¬ k = b := fun e => hb e.symm
          simp [hk, hb, hb2, TreeHelper.addBranch, mapFind_mapAssign]
    · intro hn
      exact hnodup (keys_nodup_mapAssign st.vals_ b t hn)
    · intro k
      rw [hmem k]
      simp only [TreeHelper.addBranch, mem_keys_mapAssign, List.mem_cons]
      tauto

theorem declareLoop_valid_of_ok (specs : List (List Char)) (st st1 : TreeHelper)
    (h : declareLoop specs st = .ok st1) : ∀ b ∈ specs, ValidSpec b := by
  by_contra hno
  have hex : ∃ b ∈ specs, ¬ ValidSpec b := by
    by_contra hnone
    apply hno
    intro b hb
    by_contra hv
    exact hnone ⟨b, hb, hv⟩
  rw [declareLoop_error specs st hex] at h
  cases h

/-- C11: the constructor from branch names throws (a `std::runtime_error`,
nothing else) exactly when some spec of the list has fewer than 3 characters
or a last character other than `B`, `I`, `D`; the lists `["ab"]` and `["x/Z"]`
are rejected, and every list whose specs all have at least 3 characters and
end in `B`, `I` or `D` is accepted. -/
theorem ofBranchNames_error_iff (specs : List (List Char)) :
    ((∃ e, TreeHelper.ofBranchNames specs = .error e) ↔
        ∃ b ∈ specs, b.length < 3
          ∨ (b.getLast? ≠ some 'B' ∧ b.getLast? ≠ some 'I' ∧ b.getLast? ≠ some 'D'))
      ∧ (∀ e, TreeHelper.ofBranchNames specs = .error e → e = .runtime_error)
      ∧ ((∀ b ∈ specs, 3 ≤ b.length
            ∧ (b.getLast? = some 'B' ∨ b.getLast? = some 'I' ∨ b.getLast? = some 'D')) →
          ∃ st, TreeHelper.ofBranchNames specs = .ok st)
      ∧ TreeHelper.ofBranchNames [['a', 'b']] = .error .runtime_error
      ∧ TreeHelper.ofBranchNames [['x', '/', 'Z']] = .error .runtime_error := by
  have hcases : (∃ b ∈ specs, ¬ ValidSpec b) ∨ (∀ b ∈ specs, ValidSpec b) := by
    by_cases hex : ∃ b ∈ specs, ¬ ValidSpec b
    · exact Or.inl hex
    · right
      intro b hb
      by_contra hv
      exact hex ⟨b, hb, hv⟩
  refine ⟨⟨?_, ?_⟩, ?_, ?_, ?_, ?_⟩
  · rintro ⟨e, he⟩
    rcases hcases with hex | hall
    · obtain ⟨b, hb, hv⟩ := hex
      exact ⟨b, hb, (not_validSpec_iff b).mp hv⟩
    · obtain ⟨st, hst, _⟩ := declareLoop_ok specs ⟨[], []⟩ hall
      rw [TreeHelper.ofBranchNames, hst] at he
      cases he
  · rintro ⟨b, hb, hbad⟩
    exact ⟨.runtime_error,
      declareLoop_error specs ⟨[], []⟩ ⟨b, hb, (not_validSpec_iff b).mpr hbad⟩⟩
  · intro e he
    rcases hcases with hex | hall
    · rw [TreeHelper.ofBranchNames, declareLoop_error specs ⟨[], []⟩ hex] at he
      cases he
      rfl
    · obtain ⟨st, hst, _⟩ := declareLoop_ok specs ⟨[], []⟩ hall
      rw [TreeHelper.ofBranchNames, hst] at he
      cases he
  · intro hall
    obtain ⟨st, hst, _⟩ := declareLoop_ok specs ⟨[], []⟩ hall
    exact ⟨st, hst⟩
  · rfl
  · rfl

theorem validSpec_of_parts (specs : List (List Char))
    (h : ∀ b ∈ specs, ValidSpec b) (b : List Char) (hb : b ∈ specs) :
    ∃ t, specType b = some t := by
  obtain ⟨t, ht, _⟩ := declareStep_of_valid ⟨[], []⟩ b (h b hb)
  exact ⟨t, ht⟩

/-- C12 as amended: for every list of valid specs the constructor succeeds;
the tree has one branch per spec, in input order, branch `k` named by spec `k`
without its 2-character suffix, typed by its trailing code and bound to the
slot keyed by spec `k`; `vals_` holds one slot per distinct spec, of the
decoded type, and nothing else, so the slot count is the number of distinct
specs, which is the number of specs when no spec is repeated. -/
theorem ofBranchNames_schema (specs : List (List Char)) (h : ∀ b ∈ specs, ValidSpec b) :
    ∃ st, TreeHelper.ofBranchNames specs = .ok st
      ∧ st.tree_.length = specs.length
      ∧ st.tree_.map (fun br : Branch => (br.name, some br.type))
          = specs.map (fun b => (specName b, specType b))
      ∧ st.tree_.map (fun br : Branch => br.slot) = specs
      ∧ st.tree_.map (fun br : Branch => br.leaflist) = specs
      ∧ (∀ b ∈ specs, ∃ t, specType b = some t ∧ mapFind st.vals_ b = some t)
      ∧ (st.vals_.map Prod.fst).Nodup
      ∧ (∀ k, k ∈ st.vals_.map Prod.fst ↔ k ∈ specs)
      ∧ st.vals_.length = specs.dedup.length
      ∧ (specs.Nodup → st.vals_.length = specs.length) := by
  obtain ⟨st, hst, htree, hfind, hnodup, hmem⟩ := declareLoop_ok specs ⟨[], []⟩ h
  have hkeys : (st.vals_.map Prod.fst).Nodup := hnodup List.nodup_nil
  have hmem2 : ∀ k, k ∈ st.vals_.map Prod.fst ↔ k ∈ specs := by
    intro k
    rw [hmem k]
    constructor
    · rintro (hk | hk)
      · cases hk
      · exact hk
    · exact Or.inr
  have hlen : st.vals_.length = specs.dedup.length := by
    have hperm : (st.vals_.map Prod.fst).Perm specs.dedup :=
      (List.perm_ext_iff_of_nodup hkeys (List.nodup_dedup specs)).mpr
        (fun k => by rw [hmem2 k, List.mem_dedup])
    have := hperm.length_eq
    rwa [List.length_map] at this
  have hproj := congrArg (List.map (fun q : List Char × Option LeafType × List Char × List Char
    => (q.1, q.2.1))) htree
  have hslot := congrArg (List.map (fun q : List Char × Option LeafType × List Char × List Char
    => q.2.2.1)) htree
  have hleaf := congrArg (List.map (fun q : List Char × Option LeafType × List Char × List Char
    => q.2.2.2)) htree
  simp only [List.map_map, List.map_nil, List.nil_append, Function.comp_def, List.map_id']
    at hproj hslot hleaf
  refine ⟨st, hst, ?_, hproj, ?_, ?_, ?_, hkeys, hmem2, hlen, ?_⟩
  · have := congrArg List.length hproj
    simpa using this
  · exact hslot
  · exact hleaf
  · intro b hb
    obtain ⟨t, ht⟩ := validSpec_of_parts specs h b hb
    refine ⟨t, ht, ?_⟩
    rw [hfind b, if_pos hb, ht]
  · intro hnd
    rw [hlen, List.Nodup.dedup hnd]

/-- C13 as amended: when the constructor succeeds, the branch names are the
names of the specs (each spec without its 2-character suffix) in input order,
so no two branches share a name exactly when no two specs of the list have
the same name; a list with a repeated name is not rejected. -/
theorem ofBranchNames_names (specs : List (List Char)) (st : TreeHelper)
    (h : TreeHelper.ofBranchNames specs = .ok st) :
    st.tree_.map (fun br : Branch => br.name) = specs.map specName
      ∧ ((st.tree_.map (fun br : Branch => br.name)).Nodup ↔ (specs.map specName).Nodup) := by
  have hvalid := declareLoop_valid_of_ok specs ⟨[], []⟩ st h
  obtain ⟨st1, hst1, htree, _⟩ := declareLoop_ok specs ⟨[], []⟩ hvalid
  rw [TreeHelper.ofBranchNames, hst1] at h
  have hst_eq : st1 = st := by
    cases h
    rfl
  subst hst_eq
  have hname := congrArg (List.map (fun q : List Char × Option LeafType × List Char × List Char
    => q.1)) htree
  simp only [List.map_map, List.map_nil, List.nil_append, Function.comp_def] at hname
  exact ⟨hname, by rw [hname]⟩

end Declare

/-- C12 refuted as stated: the list `["x/D", "x/D"]` of valid specs yields two
branches and a single slot. -/
theorem ofBranchNames_repeated_spec :
    (∀ b ∈ [specXD, specXD], ValidSpec b)
      ∧ ∃ st, TreeHelper.ofBranchNames [specXD, specXD] = .ok st
          ∧ st.tree_.length = 2 ∧ st.vals_.length = 1 := by
  refine ⟨by decide, _, rfl, ?_, ?_⟩ <;> decide

/-- C13 refuted as stated: the list `["x/D", "x/I"]` is accepted and yields two
branches named `x`. -/
theorem ofBranchNames_repeated_name :
    ∃ st, TreeHelper.ofBranchNames [specXD, specXI] = .ok st
      ∧ st.tree_.map (fun br : Branch => br.name) = [['x'], ['x']]
      ∧ ¬ (st.tree_.map (fun br : Branch => br.name)).Nodup := by
  refine ⟨_, rfl, ?_, ?_⟩ <;> decide

/-- Witness for C12 as amended on `["x/D", "x/I", "n/B"]`. -/
theorem ofBranchNames_schema_witness :
    (∀ b ∈ [specXD, specXI, specNB], ValidSpec b)
      ∧ ∃ st, TreeHelper.ofBranchNames [specXD, specXI, specNB] = .ok st
          ∧ st.tree_.length = 3 ∧ st.vals_.length = 3 := by
  have hall : ∀ b ∈ [specXD, specXI, specNB], ValidSpec b := by decide
  obtain ⟨st, hst, hlen, _, _, _, _, _, _, _, hslots⟩ :=
    ofBranchNames_schema [specXD, specXI, specNB] hall
  exact ⟨hall, st, hst, hlen, hslots (by decide)⟩

/-- Witness for C13 as amended on `["x/D", "n/B"]`. -/
theorem ofBranchNames_names_witness :
    ∃ st, TreeHelper.ofBranchNames [specXD, specNB] = .ok st
      ∧ st.tree_.map (fun br : Branch => br.name) = [specXD, specNB].map specName := by
  refine ⟨_, rfl, ?_⟩
  exact (ofBranchNames_names [specXD, specNB] _ rfl).1

/-- Witness for C11: the list `["x/D", "x/I", "n/B"]` is accepted. -/
theorem ofBranchNames_error_iff_witness :
    (∀ b ∈ [specXD, specXI, specNB], 3 ≤ b.length
        ∧ (b.getLast? = some 'B' ∨ b.getLast? = some 'I' ∨ b.getLast? = some 'D'))
      ∧ ∃ st, TreeHelper.ofBranchNames [specXD, specXI, specNB] = .ok st := by
  have hall : ∀ b ∈ [specXD, specXI, specNB], 3 ≤ b.length
      ∧ (b.getLast? = some 'B' ∨ b.getLast? = some 'I' ∨ b.getLast? = some 'D') := by
    decide
  exact ⟨hall, (ofBranchNames_error_iff [specXD, specXI, specNB]).2.2.1 hall⟩

/-! ## LogY -/

section Log

variable {α : Type} [LinearOrderedField α] {T : TGraphLike}

theorem forLoop_logStep (log : α → α) (nan : α) :
    ∀ (rest done : List (Sample α)),
      forLoop (logStep log nan) done.length rest.length (done ++ rest)
        = ⟨done ++ rest.map (logPoint log nan), none⟩ := by
  intro rest
  induction rest with
  | nil => intro done; simp [forLoop]
  | cons p ps ih =>
    intro done
    have hget := getElem?_append_cons done ps p
    have hstep : logStep log nan done.length (done ++ p :: ps)
        = ⟨(done ++ [logPoint log nan p]) ++ ps, none⟩ := by
      by_cases hp : p.y > 0
      · simp [logStep, hget, hp, logPoint, set_append_cons]
      · simp [logStep, hget, hp, logPoint, set_append_cons]
    rw [List.length_cons, forLoop_succ_ok _ _ _ _ _ hstep]
    have := ih (done ++ [logPoint log nan p])
    simp only [List.length_append, List.length_singleton] at this
    rw [this]
    simp

theorem LogY_eq (log : α → α) (nan : α) (g : Graph T α) :
    LogY log nan g = ⟨{ g with pts := g.pts.map (logPoint log nan) }, none⟩ := by
  have h := forLoop_logStep log nan g.pts []
  simp only [List.length_nil, List.nil_append] at h
  simp [LogY, Graph.GetN, h]

end Log

/-- C14: `LogY` never throws; the number of points, every `x` (and `ex`,
`ey`, and the bit `kIsSortedX`) are unchanged, and the new `y` is `log y` when
the old `y` is positive and the not-a-number value when the old `y` is at
most 0.  On `y = [1, 0, -5, e]` over the reals the result is
`[0, NaN, NaN, 1]`. -/
theorem LogY_never_fails :
    (∀ (α : Type) [LinearOrderedField α] (T : TGraphLike) (log : α → α) (nan : α)
        (g : Graph T α),
        (LogY log nan g).raised = none
          ∧ (LogY log nan g).state.pts.length = g.pts.length
          ∧ (LogY log nan g).state.kIsSortedX = g.kIsSortedX
          ∧ ∀ (i : Nat) (p : Sample α), g.pts[i]? = some p →
              ∃ q : Sample α, (LogY log nan g).state.pts[i]? = some q
                ∧ q.x = p.x ∧ q.ex = p.ex ∧ q.ey = p.ey
                ∧ (0 < p.y → q.y = log p.y) ∧ (p.y ≤ 0 → q.y = nan))
      ∧ (∀ nan : ℝ,
          (LogY Real.log nan
              ({ fName := "g", fTitle := "t", xTitle := "x", yTitle := "y", markerStyle := 20,
                 kIsSortedX := false,
                 pts := [⟨1, 1, 0, 0⟩, ⟨2, 0, 0, 0⟩, ⟨3, -5, 0, 0⟩, ⟨4, Real.exp 1, 0, 0⟩] } :
                Graph .TGraph ℝ)).state.pts.map (fun p => p.y)
            = [0, nan, nan, 1]) := by
  constructor
  · intro α _ T log nan g
    rw [LogY_eq]
    refine ⟨rfl, by simp, rfl, ?_⟩
    intro i p hp
    refine ⟨logPoint log nan p, by simp [hp], ?_⟩
    by_cases hy : p.y > 0
    · have hn : ¬ p.y ≤ 0 := not_le.mpr hy
      simp [logPoint, hy, hn]
    · have hle : p.y ≤ 0 := not_lt.mp hy
      simp [logPoint, hy, hle]
  · intro nan
    rw [LogY_eq]
    have he : (0 : ℝ) < Real.exp 1 := Real.exp_pos 1
    norm_num [logPoint, he]

/-- Witness for C14 on the points `(2, 5, 1, 3), (4, 7, 2, 1)` over the
rationals, with the identity for `log` and 0 for the not-a-number value. -/
theorem LogY_never_fails_witness :
    (LogY (fun v => v) 0 exampleErr2).raised = none
      ∧ (LogY (fun v => v) 0 exampleErr2).state.pts.length = exampleErr2.pts.length :=
  ⟨(LogY_never_fails.1 ℚ .TGraphErrors (fun v => v) 0 exampleErr2).1,
   (LogY_never_fails.1 ℚ .TGraphErrors (fun v => v) 0 exampleErr2).2.1⟩

/-! ## The bit kIsSortedX under the transforms -/

section Flag

variable {α : Type} [LinearOrderedField α] {T : TGraphLike}

theorem FlagSound_of_clear (g : Graph T α) (h : g.kIsSortedX = false) : FlagSound g := by
  intro hset
  rw [h] at hset
  cases hset

theorem Create_flag (n : Int) (name title x_title y_title : Option String) (style : Nat)
    (g : Graph T α) (h : Create T n name title x_title y_title style = .ok g) :
    g.kIsSortedX = false := by
  unfold Create at h
  cases x_title with
  | none => cases h
  | some xt =>
    cases y_title with
    | none => cases h
    | some yt =>
      simp only [Except.ok.injEq] at h
      rw [← h]
      rfl

theorem MakeGraphCoarseGrained_flag (sqrt : α → α) (g : Graph .TGraph α) (step : Int)
    (out : Graph .TGraph α) (h : MakeGraphCoarseGrained sqrt g step = .ok out) :
    out.kIsSortedX = false := by
  by_cases h0 : step ≤ 0
  · simp [MakeGraphCoarseGrained, h0] at h
  · by_cases h1 : step = 1
    · subst h1
      rw [MakeGraphCoarseGrained_one] at h
      simp only [Except.ok.injEq] at h
      rw [← h]
    · obtain ⟨s, rfl⟩ := Int.eq_ofNat_of_zero_le (by omega : 0 ≤ step)
      have hs : 2 ≤ s := by omega
      rw [MakeGraphCoarseGrained_eq sqrt g s hs] at h
      simp only [Except.ok.injEq] at h
      rw [← h]

theorem SortX_sound (g : Graph T α) (h : FlagSound g) : FlagSound (SortX g) := by
  cases hflag : g.kIsSortedX
  · rw [SortX_of_clear g hflag]
    intro _
    exact sorted_insertionSort_x g.pts
  · rw [SortX_of_set g hflag]
    exact h

theorem invertPrefix_of_sorted (l : List (Sample α))
    (hsorted : (l.map (fun p => p.x)).Pairwise (fun a b => a ≤ b))
    (hbad : ∃ p ∈ l, p.x ≤ 0) : invertPrefix T l = l := by
  cases l with
  | nil => rfl
  | cons p ps =>
    by_cases hp : p.x ≤ 0
    · simp [invertPrefix, hp]
    · exfalso
      obtain ⟨q, hq, hqx⟩ := hbad
      rcases List.mem_cons.mp hq with rfl | hq
      · exact hp hqx
      · simp only [List.map_cons, List.pairwise_cons, List.mem_map, forall_exists_index,
          and_imp, forall_apply_eq_imp_iff₂] at hsorted
        exact hp (le_trans (hsorted.1 q hq) hqx)

theorem InvertX_sound (g : Graph T α) (h : FlagSound g) : FlagSound (InvertX g).state := by
  by_cases hbad : ∃ p ∈ g.pts, p.x ≤ 0
  · rw [InvertX_of_nonpos g hbad]
    intro hset
    have hsorted := h hset
    simp only [invertPrefix_of_sorted g.pts hsorted hbad]
    exact hsorted
  · have hpos : ∀ p ∈ g.pts, 0 < p.x := by
      intro p hp
      by_contra hle
      exact hbad ⟨p, hp, not_lt.mp hle⟩
    rw [InvertX_of_pos g hpos]
    exact FlagSound_of_clear _ rfl

theorem LogY_sound (log : α → α) (nan : α) (g : Graph T α) (h : FlagSound g) :
    FlagSound (LogY log nan g).state := by
  rw [LogY_eq]
  intro hset
  have hx : (g.pts.map (logPoint log nan)).map (fun p => p.x) = g.pts.map (fun p => p.x) := by
    rw [List.map_map]
    apply List.map_congr_left
    intro p _
    by_cases hy : p.y > 0 <;> simp [logPoint, hy]
  simp only [hx]
  exact h hset

theorem le_getLast_of_sorted (l : List (Sample α)) (hl : l ≠ [])
    (hsorted : l.Pairwise (fun p q => p.x ≤ q.x)) (a : Sample α) (ha : a ∈ l) :
    a.x ≤ (l.getLast hl).x := by
  rw [← List.dropLast_append_getLast hl, List.pairwise_append] at hsorted
  rw [← List.dropLast_append_getLast hl, List.mem_append, List.mem_singleton] at ha
  rcases ha with ha | ha
  · exact hsorted.2.2 a ha _ (List.mem_singleton_self _)
  · rw [ha]

theorem head_le_of_sorted (l : List (Sample α)) (hl : l ≠ [])
    (hsorted : l.Pairwise (fun p q => p.x ≤ q.x)) (b : Sample α) (hb : b ∈ l) :
    (l.head hl).x ≤ b.x := by
  cases l with
  | nil => exact absurd rfl hl
  | cons c l =>
    rw [List.pairwise_cons] at hsorted
    rcases List.mem_cons.mp hb with rfl | hb
    · exact le_refl _
    · exact hsorted.1 b hb

theorem PushGraph_sound (s t : Graph T α) (hs : s.pts ≠ []) (ht : t.pts ≠ [])
    (hss : FlagSound s) (hst : FlagSound t) :
    FlagSound (PushGraph ⟨s, t⟩).state.g ∧ FlagSound (PushGraph ⟨s, t⟩).state.g_pushed := by
  rw [PushGraph_eq s t hs ht]
  refine ⟨?_, hss⟩
  intro hset
  simp only [Bool.and_eq_true, decide_eq_true_eq] at hset
  obtain ⟨⟨htf, hsf⟩, hjoin⟩ := hset
  have hts := hst htf
  have hssorted := hss hsf
  rw [List.pairwise_map] at hts hssorted
  have hx : (s.pts.map (copyPoint T)).map (fun p => p.x) = s.pts.map (fun p => p.x) := by
    rw [List.map_map]
    apply List.map_congr_left
    intro p _
    cases T <;> simp [copyPoint, TGraphLike.hasErrors]
  simp only [List.map_append, hx]
  rw [← List.map_append, List.pairwise_map, List.pairwise_append]
  refine ⟨hts, hssorted, ?_⟩
  intro a ha b hb
  have h1 := le_getLast_of_sorted t.pts ht hts a ha
  have h2 := head_le_of_sorted s.pts hs hssorted b hb
  exact le_trans h1 (le_trans (le_of_lt hjoin) h2)

/-- C15: the transforms keep the bit `kIsSortedX` truthful.  A graph made by
`Create` (either overload) or `MakeGraphCoarseGrained` has the bit clear; and
if the bit is truthful on the inputs, it is truthful on the graph left by
`SortX`, by `InvertX` (whether it returns or throws part-way), by `LogY`, and
on both graphs after `PushGraph` with non-empty operands. -/
theorem FlagSound_preserved :
    (∀ (n : Int) (name title x_title y_title : Option String) (style : Nat) (g : Graph T α),
        Create T n name title x_title y_title style = .ok g → FlagSound g)
      ∧ (∀ g out : Graph .TGraph α, CreateFrom g = .ok out → FlagSound out)
      ∧ (∀ g : Graph T α, FlagSound g → FlagSound (SortX g))
      ∧ (∀ g : Graph T α, FlagSound g → FlagSound (InvertX g).state)
      ∧ (∀ (log : α → α) (nan : α) (g : Graph T α),
          FlagSound g → FlagSound (LogY log nan g).state)
      ∧ (∀ s t : Graph T α, s.pts ≠ [] → t.pts ≠ [] → FlagSound s → FlagSound t →
          FlagSound (PushGraph ⟨s, t⟩).state.g ∧ FlagSound (PushGraph ⟨s, t⟩).state.g_pushed)
      ∧ (∀ (sqrt : α → α) (g : Graph .TGraph α) (step : Int) (out : Graph .TGraph α),
          MakeGraphCoarseGrained sqrt g step = .ok out → FlagSound out) := by
  refine ⟨?_, ?_, SortX_sound, InvertX_sound, LogY_sound, PushGraph_sound, ?_⟩
  · intro n name title x_title y_title style g h
    exact FlagSound_of_clear g (Create_flag n name title x_title y_title style g h)
  · intro g out h
    exact FlagSound_of_clear out (Create_flag _ _ _ _ _ _ out h)
  · intro sqrt g step out h
    exact FlagSound_of_clear out (MakeGraphCoarseGrained_flag sqrt g step out h)

theorem PushGraph_unfold (s t : Graph T α) :
    PushGraph ⟨s, t⟩
      = if (t.kIsSortedX && s.kIsSortedX) = true then
          match readAt (t.pts ++ s.pts.map (copyPoint T)) ((t.pts.length : Int) - 1),
              readAt s.pts 0 with
          | some a, some b =>
            ⟨⟨s, { t with pts := t.pts ++ s.pts.map (copyPoint T),
                          kIsSortedX := decide (a.x < b.x) }⟩, none⟩
          | _, _ => ⟨⟨s, { t with pts := t.pts ++ s.pts.map (copyPoint T) }⟩,
                      some .out_of_bounds⟩
        else
          ⟨⟨s, { t with pts := t.pts ++ s.pts.map (copyPoint T), kIsSortedX := false }⟩,
            none⟩ := by
  have hloop := forLoop_pushStep s t.pts.length s.pts [] t.pts
    (t.Set (t.pts.length + s.pts.length)) (by simp) (by simp) (by simp [Graph.Set])
  simp only [List.length_nil] at hloop
  unfold PushGraph
  simp only [Graph.GetN, hloop]
  by_cases hflags : (t.kIsSortedX && s.kIsSortedX) = true
  · simp only [Graph.Set, hflags, if_true]
  · have hf : (t.kIsSortedX && s.kIsSortedX) = false := by simpa using hflags
    simp [Graph.Set, hf]

theorem PushGraph_raised (s t : Graph T α) :
    (PushGraph ⟨s, t⟩).raised
      = if (t.kIsSortedX && s.kIsSortedX) = true ∧ (t.pts = [] ∨ s.pts = []) then
          some .out_of_bounds
        else none := by
  rw [PushGraph_unfold]
  by_cases hflags : (t.kIsSortedX && s.kIsSortedX) = true
  · simp only [hflags, if_true, true_and]
    by_cases ht : t.pts = []
    · have hread : readAt (t.pts ++ s.pts.map (copyPoint T)) ((t.pts.length : Int) - 1)
          = none := by
        simp [readAt, ht]
      rw [hread]
      simp [ht]
    · by_cases hs : s.pts = []
      · have hread : readAt s.pts 0 = none := by simp [readAt, hs]
        rw [hread, readAt_pred_append t.pts _ ht]
        simp [hs]
      · rw [readAt_pred_append t.pts _ ht, readAt_zero s.pts hs]
        simp [ht, hs]
  · simp [hflags]

end Flag

/-- Witness for C15: the sorted three-point series `exampleErr3` stays
truthful under `InvertX`. -/
theorem FlagSound_preserved_witness :
    FlagSound exampleErr3 ∧ FlagSound (InvertX exampleErr3).state :=
  ⟨by decide, FlagSound_preserved.2.2.2.1 exampleErr3 (by decide)⟩

/-- C16, evaluated: with both bits set, pushing onto an empty target reads
`g->GetX()[-1]`, and pushing an empty source reads `x_pushed[0]` of a graph
without points; both calls end in an out-of-bounds read.  The empty graph with
the bit set is what `SortX` makes of an empty graph. -/
theorem PushGraph_empty_operand :
    SortX { exampleEmptySorted with kIsSortedX := false } = exampleEmptySorted
      ∧ readAt exampleEmptySorted.pts ((exampleEmptySorted.GetN : Int) - 1) = none
      ∧ (PushGraph ⟨exampleErr3, exampleEmptySorted⟩).raised = some .out_of_bounds
      ∧ readAt exampleEmptySorted.pts 0 = none
      ∧ (PushGraph ⟨exampleEmptySorted, exampleErr2⟩).raised = some .out_of_bounds := by
  refine ⟨?_, ?_, ?_, ?_, ?_⟩
  · rfl
  · rfl
  · rw [PushGraph_raised]
    simp [exampleErr3, exampleEmptySorted]
  · rfl
  · rw [PushGraph_raised]
    simp [exampleErr2, exampleEmptySorted]

end rs
